import Mathlib

/-!
Verification of the streemm video pipeline and recommendation engine.

This file gives a shallow embedding, in Lean 4, of the pure computational
core of the repository (apps/api): transcript chunking, fps/GOP derivation,
embedding-text assembly, the notifier's idempotence guard, the worker's
finalize step, min-max score normalization, maximal marginal relevance, the
BM25 query assembly and the two-lane blend with quota backfill.  Python
floats are modelled as exact rationals (ℚ); Python strings as Lean strings
restricted to the ASCII behaviour the code relies on; fallible paths as
Option/Except.  External effects (database, object store, OpenSearch, Neo4j,
SMTP, transcendental functions such as sqrt/pow used only inside opaque
scores) are passed in as explicit parameters, so every definition is
executable.
-/

/-- Whitespace recognized by Python str.strip / str.split with no argument,
restricted to the ASCII range used by this code base. -/
def pyIsSpace (c : Char) : Bool :=
  c == ' ' || c == '\t' || c == '\n' || c == '\r' || c == '\x0b' || c == '\x0c'

/-- Drop trailing whitespace from a character list. -/
def dropTrailingWs (l : List Char) : List Char :=
  (l.reverse.dropWhile pyIsSpace).reverse

/-- Python str.strip on a character list. -/
def pyStripL (l : List Char) : List Char :=
  dropTrailingWs (l.dropWhile pyIsSpace)

/-- Python str.strip. -/
def pyStrip (s : String) : String :=
  ⟨pyStripL s.data⟩

/-- Python `a or b` for optional strings (None and "" are falsy). -/
def pyOrStr (a : Option String) (b : String) : String :=
  match a with
  | none => b
  | some s => if s = "" then b else s

namespace EmbeddingUtils

/-- Topic snippet record mirroring apps/api/embedding_utils.py. -/
structure TopicSnippet where
  id : String
  name : String
  canonical_name : String
  prominence : ℚ
  deriving Repr, DecidableEq

/-- Entity snippet record mirroring apps/api/embedding_utils.py. -/
structure EntitySnippet where
  id : String
  name : String
  canonical_name : String
  importance : ℚ
  deriving Repr, DecidableEq

/-- Tag snippet record mirroring apps/api/embedding_utils.py. -/
structure TagSnippet where
  id : String
  name : String
  canonical_name : String
  weight : ℚ
  deriving Repr, DecidableEq

/-- Embedding of apps/api/embedding_utils.py _format_pipe_list: keep the
truthy entries whose strip is truthy, strip them, and join with " | ",
falling back to "n/a" when nothing remains. -/
def formatPipeList (items : List String) : String :=
  let values := (items.filter (fun v => !(v == "") && !(pyStrip v == ""))).map pyStrip
  match values with
  | [] => "n/a"
  | _ => String.intercalate " | " values

/-- Embedding of apps/api/embedding_utils.py build_video_embedding_text. -/
def build_video_embedding_text
    (title description : String) (summary : Option String)
    (topics : List TopicSnippet) (entities : List EntitySnippet)
    (tags : List TagSnippet)
    (content_type language : Option String) : String :=
  let topic_names := formatPipeList (topics.map (·.name))
  let entity_names := formatPipeList (entities.map (·.name))
  let tag_names := formatPipeList (tags.map (·.name))
  let lines : List String := [
    "Title: " ++ (if title ≠ "" then pyStrip title else ""),
    "",
    "Description: " ++ (if description ≠ "" then pyStrip description else ""),
    "",
    "Summary: " ++ pyStrip (summary.getD ""),
    "",
    "Topics: " ++ topic_names,
    "Entities: " ++ entity_names,
    "Tags: " ++ tag_names,
    "",
    "Metadata: content_type=" ++ pyOrStr content_type "other" ++
      ", language=" ++ pyOrStr language "en"]
  String.intercalate "\n" lines

end EmbeddingUtils

/-- C8: build_video_embedding_text produces the stable layout byte-for-byte:
empty topic/entity/tag name lists render as "n/a", multiple names are joined
with " | ", missing content_type/language default to "other"/"en", and the
concrete example from the spec renders to exactly the claimed string. -/
theorem c8_embedding_text_layout :
    (EmbeddingUtils.formatPipeList [] = "n/a") ∧
    (∀ names : List String, names ≠ [] →
      (∀ n ∈ names, n ≠ "" ∧ pyStrip n ≠ "") →
      EmbeddingUtils.formatPipeList names =
        String.intercalate " | " (names.map pyStrip)) ∧
    (∀ title description summary topics entities tags,
      EmbeddingUtils.build_video_embedding_text title description summary
          topics entities tags none none =
        EmbeddingUtils.build_video_embedding_text title description summary
          topics entities tags (some "other") (some "en")) ∧
    (EmbeddingUtils.build_video_embedding_text "X" "" (some "s")
        [⟨"1", "A", "a", 1⟩, ⟨"2", "B", "b", 1⟩] [] [] none none =
      "Title: X\n\nDescription: \n\nSummary: s\n\nTopics: A | B\nEntities: n/a\nTags: n/a\n\nMetadata: content_type=other, language=en") := by
  refine ⟨rfl, ?_, ?_, rfl⟩
  · intro names hne hall
    unfold EmbeddingUtils.formatPipeList
    have hfilter :
        names.filter (fun v => !(v == "") && !(pyStrip v == "")) = names := by
      apply List.filter_eq_self.mpr
      intro a ha
      have := hall a ha
      simp only [Bool.and_eq_true, Bool.not_eq_true', beq_eq_false_iff_ne]
      exact ⟨this.1, this.2⟩
    rw [hfilter]
    cases names with
    | nil => exact absurd rfl hne
    | cons a l => simp
  · intro title description summary topics entities tags
    simp [EmbeddingUtils.build_video_embedding_text, pyOrStr]

/-- Witness for c8_embedding_text_layout at a concrete input. -/
theorem c8_embedding_text_layout_witness :
    EmbeddingUtils.formatPipeList ["A", "B"] = "A | B" := by
  have h := c8_embedding_text_layout.2.1 ["A", "B"] (by decide) (by decide)
  exact h.trans rfl

/-- Python str.split(sep) on a character list: splits at every occurrence of
the separator and keeps empty fields. -/
def splitOnAux (sep : Char) (cur : List Char) : List Char → List (List Char)
  | [] => [cur.reverse]
  | c :: cs =>
      if c = sep then cur.reverse :: splitOnAux sep [] cs
      else splitOnAux sep (c :: cur) cs

/-- Value of a nonempty all-digit character list. -/
def digitsVal? (l : List Char) : Option ℕ :=
  if l ≠ [] ∧ l.all Char.isDigit then
    some (l.foldl (fun acc c => acc * 10 + (c.toNat - 48)) 0)
  else none

/-- Python float() restricted to the decimal-numeral grammar the probe
strings use: optional surrounding whitespace, optional sign, digits with an
optional single fractional point ("7", "+1.5", ".5", "3.").  Exponents,
inf/nan and digit underscores are outside the model. -/
def pyFloat? (s : String) : Option ℚ :=
  let l := pyStripL s.data
  let sgn : ℚ := match l with
    | '-' :: _ => -1
    | _ => 1
  let body : List Char := match l with
    | '+' :: r => r
    | '-' :: r => r
    | _ => l
  match splitOnAux '.' [] body with
  | [ip] => (digitsVal? ip).map (fun n => sgn * n)
  | [ip, fp] =>
      if ip = [] then (digitsVal? fp).map (fun n => sgn * n / 10 ^ fp.length)
      else if fp = [] then (digitsVal? ip).map (fun n => sgn * n)
      else
        match digitsVal? ip, digitsVal? fp with
        | some a, some b => some (sgn * ((a : ℚ) + (b : ℚ) / 10 ^ fp.length))
        | _, _ => none
  | _ => none

namespace Worker

/-- One entry of probe["streams"], with the two frame-rate keys the code
reads; a missing key is None. -/
structure ProbeStream where
  codec_type : String
  avg_frame_rate : Option String
  r_frame_rate : Option String
  deriving Repr, DecidableEq

/-- One frame-rate key of apps/api/worker.py _parse_fps_from_probe: if the
string contains "/" it is unpacked into exactly two parts (any other arity
raises an uncaught ValueError, modelled as .error); the float conversions
and the den > 0 test live inside try/except, so their failure just moves on
to the next key (.ok none). -/
def tryRateKey (fr? : Option String) : Except Unit (Option ℚ) :=
  match fr? with
  | none => .ok none
  | some fr =>
      if fr.data.contains '/' then
        match splitOnAux '/' [] fr.data with
        | [numS, denS] =>
            match pyFloat? ⟨numS⟩, pyFloat? ⟨denS⟩ with
            | some num, some den =>
                if 0 < den then .ok (some (num / den)) else .ok none
            | _, _ => .ok none
        | _ => .error ()
      else .ok none

/-- Loop of _parse_fps_from_probe over probe["streams"]: every stream with
codec_type "video" is examined, avg_frame_rate before r_frame_rate. -/
def streamFps : List ProbeStream → Except Unit (Option ℚ)
  | [] => .ok none
  | s :: rest =>
      if s.codec_type = "video" then
        match tryRateKey s.avg_frame_rate with
        | .error e => .error e
        | .ok (some q) => .ok (some q)
        | .ok none =>
            match tryRateKey s.r_frame_rate with
            | .error e => .error e
            | .ok (some q) => .ok (some q)
            | .ok none => streamFps rest
      else streamFps rest

/-- Embedding of apps/api/worker.py _parse_fps_from_probe (fallback 30.0). -/
def parse_fps_from_probe (streams : List ProbeStream) : Except Unit ℚ :=
  match streamFps streams with
  | .error e => .error e
  | .ok (some q) => .ok q
  | .ok none => .ok 30

/-- Python round() to an integer: round-half-to-even. -/
def pyRound (q : ℚ) : ℤ :=
  let f := ⌊q⌋
  let frac := q - f
  if frac < 1 / 2 then f
  else if 1 / 2 < frac then f + 1
  else if f % 2 = 0 then f else f + 1

/-- Embedding of apps/api/worker.py _derive_gop_2s: int(round(fps * 2.0))
clamped to [24, 240]. -/
def derive_gop_2s (fps : ℚ) : ℤ :=
  max 24 (min 240 (pyRound (fps * 2)))

/-- Pure value of one frame-rate key on the non-raising paths: some N/D when
the string splits at "/" into exactly two floats with D > 0, none
otherwise. -/
def rateVal? (fr? : Option String) : Option ℚ :=
  match fr? with
  | none => none
  | some fr =>
      if fr.data.contains '/' then
        match splitOnAux '/' [] fr.data with
        | [numS, denS] =>
            match pyFloat? ⟨numS⟩, pyFloat? ⟨denS⟩ with
            | some num, some den => if 0 < den then some (num / den) else none
            | _, _ => none
        | _ => none
      else none

/-- Rate of a single stream: avg_frame_rate is consulted before
r_frame_rate, as in the key loop of _parse_fps_from_probe. -/
def streamRate? (s : ProbeStream) : Option ℚ :=
  match rateVal? s.avg_frame_rate with
  | some q => some q
  | none => rateVal? s.r_frame_rate

/-- Rate of the first video stream carrying a valid one. -/
def firstRate : List ProbeStream → Option ℚ
  | [] => none
  | s :: rest =>
      if s.codec_type = "video" then
        match streamRate? s with
        | some q => some q
        | none => firstRate rest
      else firstRate rest

/-- A frame-rate string is unpack-safe when it contains at most one "/"
(two or more make the tuple unpacking in _parse_fps_from_probe raise). -/
def slashOkB (fr? : Option String) : Bool :=
  match fr? with
  | none => true
  | some fr => fr.data.count '/' ≤ 1

/-- Modelled from the spec sentence of claim C6 (the code itself scans all
video streams): the fps predicted by the claim, parsed from the FIRST video
stream's avg_frame_rate or r_frame_rate only, falling back to 30.0. -/
def specFpsFirstVideoStream (streams : List ProbeStream) : ℚ :=
  match streams.filter (fun s => s.codec_type == "video") with
  | [] => 30
  | s :: _ => (streamRate? s).getD 30

end Worker

/-- Length of a Python-style split is the separator count plus one. -/
theorem splitOnAux_length (sep : Char) (cur : List Char) (l : List Char) :
    (splitOnAux sep cur l).length = l.count sep + 1 := by
  induction l generalizing cur with
  | nil => simp [splitOnAux]
  | cons c cs ih =>
      by_cases h : c = sep
      · subst h
        simp [splitOnAux, ih, List.count_cons]
      · simp [splitOnAux, h, ih, List.count_cons]

/-- On unpack-safe strings the key probe never raises and returns exactly
the rateVal? value. -/
theorem tryRateKey_eq_rateVal (fr? : Option String)
    (h : Worker.slashOkB fr? = true) :
    Worker.tryRateKey fr? = .ok (Worker.rateVal? fr?) := by
  match fr? with
  | none => rfl
  | some fr =>
      simp only [Worker.slashOkB, decide_eq_true_eq] at h
      by_cases hmem : '/' ∈ fr.data
      · have hc : fr.data.contains '/' = true := by
          simpa using hmem
        have hcnt : fr.data.count '/' = 1 := by
          have := List.count_pos_iff.mpr hmem
          omega
        have hlen : (splitOnAux '/' [] fr.data).length = 2 := by
          rw [splitOnAux_length, hcnt]
        obtain ⟨a, b, hab⟩ := List.length_eq_two.mp hlen
        simp only [Worker.tryRateKey, Worker.rateVal?, hc, hab,
          eq_self_iff_true, if_true]
        cases pyFloat? ⟨a⟩ with
        | none => rfl
        | some num =>
            cases pyFloat? ⟨b⟩ with
            | none => rfl
            | some den =>
                dsimp only
                split_ifs <;> rfl
      · have hc : fr.data.contains '/' = false := by
          simpa using hmem
        simp only [Worker.tryRateKey, Worker.rateVal?, hc, Bool.false_eq_true,
          if_false]

/-- On unpack-safe probes the stream scan returns the first video stream's
valid rate. -/
theorem streamFps_eq_firstRate (streams : List Worker.ProbeStream)
    (h : ∀ s ∈ streams, s.codec_type = "video" →
      Worker.slashOkB s.avg_frame_rate = true ∧
      Worker.slashOkB s.r_frame_rate = true) :
    Worker.streamFps streams = .ok (Worker.firstRate streams) := by
  induction streams with
  | nil => rfl
  | cons s rest ih =>
      have hrest : ∀ x ∈ rest, x.codec_type = "video" →
          Worker.slashOkB x.avg_frame_rate = true ∧
          Worker.slashOkB x.r_frame_rate = true :=
        fun x hx => h x (List.mem_cons_of_mem s hx)
      by_cases hv : s.codec_type = "video"
      · obtain ⟨ha, hr⟩ := h s (List.mem_cons_self s rest) hv
        simp only [Worker.streamFps, Worker.firstRate, hv, if_true,
          tryRateKey_eq_rateVal _ ha, tryRateKey_eq_rateVal _ hr,
          Worker.streamRate?]
        cases Worker.rateVal? s.avg_frame_rate with
        | some q => rfl
        | none =>
            cases Worker.rateVal? s.r_frame_rate with
            | some q => rfl
            | none => exact ih hrest
      · simp only [Worker.streamFps, Worker.firstRate, hv, if_false]
        exact ih hrest

/-- C6 counterexample: a probe whose first video stream carries only the
invalid rate "1/0" while a second video stream carries "50/1".  The claim
predicts the 30.0 fallback (fps taken from the first video stream or 30.0
otherwise); the code keeps scanning and derives 50. -/
theorem c6_fps_counterexample :
    Worker.parse_fps_from_probe
        [⟨"video", some "1/0", none⟩, ⟨"video", some "50/1", none⟩] =
      .ok 50 ∧
    Worker.specFpsFirstVideoStream
        [⟨"video", some "1/0", none⟩, ⟨"video", some "50/1", none⟩] = 30 ∧
    (50 : ℚ) ≠ 30 := by
  refine ⟨?_, ?_, by norm_num⟩
  · simp +decide [Worker.parse_fps_from_probe, Worker.streamFps,
      Worker.tryRateKey, pyFloat?, pyStripL, dropTrailingWs, splitOnAux,
      digitsVal?, pyIsSpace]
  · simp +decide [Worker.specFpsFirstVideoStream, Worker.streamRate?,
      Worker.rateVal?, pyFloat?, pyStripL, dropTrailingWs, splitOnAux,
      digitsVal?, pyIsSpace]

/-- C6 (amended): the derived fps is N/D parsed from the first video stream
whose avg_frame_rate or r_frame_rate has the form N/D with D > 0 (the scan
does not stop at the first video stream), and 30.0 when no video stream has
such a rate, provided every examined rate string contains at most one "/";
the GOP is round(fps × 2.0) clamped to [24, 240] with
|round(2·fps) − 2·fps| ≤ 0.5, and the concrete figures of the claim hold:
"30000/1001" yields GOP 60, "60/1" yields fps 60 and GOP 120, and "1/0"
falls back to fps 30 and GOP 60. -/
theorem c6_fps_gop_amended :
    (∀ streams : List Worker.ProbeStream,
      (∀ s ∈ streams, s.codec_type = "video" →
        Worker.slashOkB s.avg_frame_rate = true ∧
        Worker.slashOkB s.r_frame_rate = true) →
      Worker.parse_fps_from_probe streams =
        .ok ((Worker.firstRate streams).getD 30)) ∧
    (∀ fps : ℚ, |((Worker.pyRound (fps * 2) : ℚ)) - fps * 2| ≤ 1 / 2) ∧
    (∀ fps : ℚ, 24 ≤ Worker.derive_gop_2s fps ∧
      Worker.derive_gop_2s fps ≤ 240) ∧
    (Worker.parse_fps_from_probe [⟨"video", some "30000/1001", none⟩] =
        .ok (30000 / 1001 : ℚ) ∧
      Worker.derive_gop_2s (30000 / 1001) = 60) ∧
    (Worker.parse_fps_from_probe [⟨"video", some "60/1", none⟩] =
        .ok (60 : ℚ) ∧
      Worker.derive_gop_2s 60 = 120) ∧
    (Worker.parse_fps_from_probe [⟨"video", some "1/0", none⟩] =
        .ok (30 : ℚ) ∧
      Worker.derive_gop_2s 30 = 60) := by
  refine ⟨?_, ?_, ?_, ⟨?_, ?_⟩, ⟨?_, ?_⟩, ⟨?_, ?_⟩⟩
  · intro streams h
    rw [Worker.parse_fps_from_probe, streamFps_eq_firstRate streams h]
    cases Worker.firstRate streams <;> rfl
  · intro fps
    simp only [Worker.pyRound]
    have h0 : (0 : ℚ) ≤ fps * 2 - ⌊fps * 2⌋ := by
      have := Int.floor_le (fps * 2)
      linarith
    have h1 : fps * 2 - ⌊fps * 2⌋ < 1 := by
      have := Int.lt_floor_add_one (fps * 2)
      linarith
    split_ifs with hlt hgt hev <;>
      · rw [abs_le]
        constructor <;> push_cast <;> linarith
  · intro fps
    unfold Worker.derive_gop_2s
    refine ⟨le_max_left _ _, max_le (by norm_num) (min_le_left _ _)⟩
  · simp +decide [Worker.parse_fps_from_probe, Worker.streamFps,
      Worker.tryRateKey, pyFloat?, pyStripL, dropTrailingWs, splitOnAux,
      digitsVal?, pyIsSpace]
  · norm_num [Worker.derive_gop_2s, Worker.pyRound]
  · simp +decide [Worker.parse_fps_from_probe, Worker.streamFps,
      Worker.tryRateKey, pyFloat?, pyStripL, dropTrailingWs, splitOnAux,
      digitsVal?, pyIsSpace]
  · norm_num [Worker.derive_gop_2s, Worker.pyRound]
  · simp +decide [Worker.parse_fps_from_probe, Worker.streamFps,
      Worker.tryRateKey, pyFloat?, pyStripL, dropTrailingWs, splitOnAux,
      digitsVal?, pyIsSpace]
  · norm_num [Worker.derive_gop_2s, Worker.pyRound]

/-- Witness for c6_fps_gop_amended at a concrete probe. -/
theorem c6_fps_gop_amended_witness :
    Worker.parse_fps_from_probe [⟨"video", some "60/1", none⟩] =
      .ok ((Worker.firstRate [⟨"video", some "60/1", none⟩]).getD 30) :=
  c6_fps_gop_amended.1 [⟨"video", some "60/1", none⟩] (by decide)

namespace Storage

/-- Embedding of apps/api/storage.py build_hls_key. -/
def build_hls_key (video_id label filename : String) : String :=
  "hls/" ++ video_id ++ "/" ++ label ++ "/" ++ filename

/-- Embedding of apps/api/storage.py build_thumbnail_key. -/
def build_thumbnail_key (video_id : String) : String :=
  "thumbs/" ++ video_id ++ "/poster.jpg"

end Storage

namespace Worker

/-- The video row fields the finalize step of process_video reads and
writes. -/
structure VideoRow where
  status : String
  notified_at : Option ℕ
  error : Option String
  deriving Repr, DecidableEq

/-- Embedding of the finalize step of apps/api/worker.py process_video
(lines 727-748): re-stat the two HLS playlists and the poster in the object
store (modelled as the key-existence predicate store), set status to
"ready" when all three are present and to "processing" otherwise, and
enqueue the ready email iff all three are present, the previous status was
not "ready" and notified_at is null.  This is the only site in
process_video that assigns status "ready". -/
def processVideoFinalize (store : String → Bool) (video_id : String)
    (v : VideoRow) : VideoRow × Bool :=
  let ok720 := store (Storage.build_hls_key video_id "720p" "index.m3u8")
  let ok480 := store (Storage.build_hls_key video_id "480p" "index.m3u8")
  let okthumb := store (Storage.build_thumbnail_key video_id)
  let will_be_ready := ok720 && ok480 && okthumb
  let prev_status := v.status
  let v1 :=
    if will_be_ready then { v with status := "ready", error := none }
    else { v with status := "processing" }
  let enq := will_be_ready && !(prev_status == "ready") &&
    (v1.notified_at == none)
  (v1, enq)

end Worker

/-- C1: the finalize step of process_video sets status "ready" exactly when
re-statting hls/{id}/720p/index.m3u8, hls/{id}/480p/index.m3u8 and
thumbs/{id}/poster.jpg finds all three present, sets status "processing"
when any is absent, and enqueues the ready email iff all three are present,
the previous status was not "ready" and notified_at is null. -/
theorem c1_finalize_ready_only_if_stats :
    ∀ (store : String → Bool) (video_id : String) (v : Worker.VideoRow),
      ((Worker.processVideoFinalize store video_id v).1.status = "ready" ↔
        (store ("hls/" ++ video_id ++ "/720p/index.m3u8") = true ∧
         store ("hls/" ++ video_id ++ "/480p/index.m3u8") = true ∧
         store ("thumbs/" ++ video_id ++ "/poster.jpg") = true)) ∧
      (¬(store ("hls/" ++ video_id ++ "/720p/index.m3u8") = true ∧
         store ("hls/" ++ video_id ++ "/480p/index.m3u8") = true ∧
         store ("thumbs/" ++ video_id ++ "/poster.jpg") = true) →
        (Worker.processVideoFinalize store video_id v).1.status =
          "processing") ∧
      ((Worker.processVideoFinalize store video_id v).2 = true ↔
        (store ("hls/" ++ video_id ++ "/720p/index.m3u8") = true ∧
         store ("hls/" ++ video_id ++ "/480p/index.m3u8") = true ∧
         store ("thumbs/" ++ video_id ++ "/poster.jpg") = true ∧
         v.status ≠ "ready" ∧ v.notified_at = none)) := by
  intro store video_id v
  have hk7 : Storage.build_hls_key video_id "720p" "index.m3u8" =
      "hls/" ++ video_id ++ "/720p/index.m3u8" := by
    simp only [Storage.build_hls_key, String.append_assoc]
    rfl
  have hk4 : Storage.build_hls_key video_id "480p" "index.m3u8" =
      "hls/" ++ video_id ++ "/480p/index.m3u8" := by
    simp only [Storage.build_hls_key, String.append_assoc]
    rfl
  have hkt : Storage.build_thumbnail_key video_id =
      "thumbs/" ++ video_id ++ "/poster.jpg" := by
    simp only [Storage.build_thumbnail_key, String.append_assoc]
  simp only [Worker.processVideoFinalize, hk7, hk4, hkt]
  set b7 := store ("hls/" ++ video_id ++ "/720p/index.m3u8") with hb7
  set b4 := store ("hls/" ++ video_id ++ "/480p/index.m3u8") with hb4
  set bt := store ("thumbs/" ++ video_id ++ "/poster.jpg") with hbt
  cases b7 <;> cases b4 <;> cases bt <;>
    simp +decide [Bool.and_eq_true, beq_iff_eq]

/-- Witness for c1_finalize_ready_only_if_stats at a concrete store that
holds all three artifacts. -/
theorem c1_finalize_ready_only_if_stats_witness :
    ((Worker.processVideoFinalize
        (fun k => decide (k ∈ ["hls/v1/720p/index.m3u8",
          "hls/v1/480p/index.m3u8", "thumbs/v1/poster.jpg"])) "v1"
        ⟨"processing", none, none⟩).1.status = "ready") :=
  (c1_finalize_ready_only_if_stats
      (fun k => decide (k ∈ ["hls/v1/720p/index.m3u8",
        "hls/v1/480p/index.m3u8", "thumbs/v1/poster.jpg"])) "v1"
      ⟨"processing", none, none⟩).1.mpr ⟨by decide, by decide, by decide⟩

namespace Notifier

/-- The video row fields notify_video_ready reads and writes. -/
structure NotifVideo where
  status : String
  notified_at : Option ℕ
  title : Option String
  original_filename : Option String
  deriving Repr, DecidableEq

/-- The owner row field notify_video_ready reads. -/
structure NotifUser where
  email : Option String
  deriving Repr, DecidableEq

/-- Result of one delivery: the stored video row afterwards and whether a
mail went out. -/
structure NotifyOutcome where
  video : Option NotifVideo
  sent : Bool
  deriving Repr, DecidableEq

/-- Embedding of apps/api/notifier.py notify_video_ready: skip without
touching anything when the lock is not acquired, the video is missing, the
status is not "ready", notified_at is already set, or the owner has no
usable email; otherwise send (send_ok models whether send_email raises) and
stamp notified_at only on success. -/
def notify_video_ready (got_lock : Bool) (v? : Option NotifVideo)
    (u? : Option NotifUser) (send_ok : Bool) (now : ℕ) : NotifyOutcome :=
  if got_lock = false then ⟨v?, false⟩
  else
    match v? with
    | none => ⟨none, false⟩
    | some v =>
        if v.status ≠ "ready" ∨ v.notified_at ≠ none then ⟨some v, false⟩
        else
          match u? with
          | none => ⟨some v, false⟩
          | some u =>
              if pyStrip (pyOrStr u.email "") = "" then ⟨some v, false⟩
              else if send_ok then
                ⟨some { v with notified_at := some now }, true⟩
              else ⟨some v, false⟩

/-- One delivery attempt of the same email job (lock outcome, loaded owner,
whether send_email succeeds, and the stamp time). -/
structure Delivery where
  got_lock : Bool
  user : Option NotifUser
  send_ok : Bool
  now : ℕ

/-- Repeated deliveries of the same email job: fold notify_video_ready over
the stored video row, counting successful sends. -/
def deliverAll (v? : Option NotifVideo) :
    List Delivery → Option NotifVideo × ℕ
  | [] => (v?, 0)
  | d :: rest =>
      let o := notify_video_ready d.got_lock v? d.user d.send_ok d.now
      let r := deliverAll o.video rest
      (r.1, (if o.sent then 1 else 0) + r.2)

end Notifier

/-- Any delivery that does not send leaves the stored row untouched. -/
theorem notify_not_sent_fix (got_lock : Bool) (v? : Option Notifier.NotifVideo)
    (u? : Option Notifier.NotifUser) (send_ok : Bool) (now : ℕ)
    (h : (Notifier.notify_video_ready got_lock v? u? send_ok now).sent =
      false) :
    (Notifier.notify_video_ready got_lock v? u? send_ok now).video = v? := by
  unfold Notifier.notify_video_ready at h ⊢
  cases got_lock with
  | false => rfl
  | true =>
      cases v? with
      | none => rfl
      | some v =>
          cases u? with
          | none =>
              simp only [Bool.true_eq_false, if_false] at h ⊢
              split_ifs <;> rfl
          | some u =>
              simp only [Bool.true_eq_false, if_false] at h ⊢
              split_ifs at h ⊢ <;> first | rfl | simp at h

/-- A delivery sends only from a loaded "ready" row with null notified_at,
and then stamps notified_at. -/
theorem notify_sent_shape (got_lock : Bool) (v? : Option Notifier.NotifVideo)
    (u? : Option Notifier.NotifUser) (send_ok : Bool) (now : ℕ)
    (h : (Notifier.notify_video_ready got_lock v? u? send_ok now).sent =
      true) :
    ∃ v, v? = some v ∧ v.status = "ready" ∧ v.notified_at = none ∧
      (Notifier.notify_video_ready got_lock v? u? send_ok now).video =
        some { v with notified_at := some now } := by
  unfold Notifier.notify_video_ready at h ⊢
  cases got_lock with
  | false => simp at h
  | true =>
      cases v? with
      | none => simp at h
      | some v =>
          cases u? with
          | none =>
              simp only [Bool.true_eq_false, if_false] at h
              split_ifs at h <;> simp at h
          | some u =>
              simp only [Bool.true_eq_false, if_false] at h ⊢
              split_ifs at h ⊢ with hguard hmail hsend <;>
                first
                | (push_neg at hguard
                   exact ⟨v, rfl, hguard.1, hguard.2, rfl⟩)
                | simp at h

/-- Once notified_at is set the row is frozen: no further delivery sends or
modifies it. -/
theorem deliverAll_notified_frozen (ds : List Notifier.Delivery)
    (v : Notifier.NotifVideo) (t : ℕ) (ht : v.notified_at = some t) :
    Notifier.deliverAll (some v) ds = (some v, 0) := by
  induction ds with
  | nil => rfl
  | cons d rest ih =>
      have hstep : Notifier.notify_video_ready d.got_lock (some v) d.user
          d.send_ok d.now = ⟨some v, false⟩ := by
        unfold Notifier.notify_video_ready
        cases d.got_lock with
        | false => rfl
        | true =>
            simp only [Bool.true_eq_false, if_false]
            have : v.status ≠ "ready" ∨ v.notified_at ≠ none :=
              Or.inr (by simp [ht])
            simp [this]
      simp [Notifier.deliverAll, hstep, ih]

/-- C5: notify_video_ready sends and stamps notified_at only when the
loaded video exists with status "ready" and null notified_at; when the
video is missing, not ready, or already notified it returns without sending
or modifying the row; and across any sequence of deliveries of the same
email job at most one send happens, so notified_at is stamped at most
once. -/
theorem c5_notifier_at_most_once :
    (∀ (got_lock : Bool) (v? : Option Notifier.NotifVideo)
        (u? : Option Notifier.NotifUser) (send_ok : Bool) (now : ℕ),
      (Notifier.notify_video_ready got_lock v? u? send_ok now).sent = true →
      ∃ v, v? = some v ∧ v.status = "ready" ∧ v.notified_at = none) ∧
    (∀ (got_lock : Bool) (u? : Option Notifier.NotifUser) (send_ok : Bool)
        (now : ℕ),
      Notifier.notify_video_ready got_lock none u? send_ok now =
        ⟨none, false⟩) ∧
    (∀ (got_lock : Bool) (v : Notifier.NotifVideo)
        (u? : Option Notifier.NotifUser) (send_ok : Bool) (now : ℕ),
      (v.status ≠ "ready" ∨ v.notified_at ≠ none) →
      Notifier.notify_video_ready got_lock (some v) u? send_ok now =
        ⟨some v, false⟩) ∧
    (∀ (v? : Option Notifier.NotifVideo) (ds : List Notifier.Delivery),
      (Notifier.deliverAll v? ds).2 ≤ 1) := by
  refine ⟨?_, ?_, ?_, ?_⟩
  · intro got_lock v? u? send_ok now h
    obtain ⟨v, hv, hst, hnt, _⟩ :=
      notify_sent_shape got_lock v? u? send_ok now h
    exact ⟨v, hv, hst, hnt⟩
  · intro got_lock u? send_ok now
    unfold Notifier.notify_video_ready
    cases got_lock <;> rfl
  · intro got_lock v u? send_ok now hguard
    unfold Notifier.notify_video_ready
    cases got_lock with
    | false => rfl
    | true =>
        simp only [Bool.true_eq_false, if_false]
        simp [hguard]
  · intro v? ds
    induction ds generalizing v? with
    | nil => simp [Notifier.deliverAll]
    | cons d rest ih =>
        simp only [Notifier.deliverAll]
        cases hs : (Notifier.notify_video_ready d.got_lock v? d.user
            d.send_ok d.now).sent with
        | false =>
            rw [notify_not_sent_fix d.got_lock v? d.user d.send_ok d.now hs]
            simpa using ih v?
        | true =>
            obtain ⟨v, hv, hst, hnt, hvid⟩ :=
              notify_sent_shape d.got_lock v? d.user d.send_ok d.now hs
            rw [hvid, deliverAll_notified_frozen rest _ d.now rfl]
            simp

/-- Witness for c5_notifier_at_most_once: an already-notified ready video
is left untouched. -/
theorem c5_notifier_at_most_once_witness :
    Notifier.notify_video_ready true
        (some ⟨"ready", some 5, none, none⟩)
        (some ⟨some "a@b.c"⟩) true 9 =
      ⟨some ⟨"ready", some 5, none, none⟩, false⟩ :=
  c5_notifier_at_most_once.2.2.1 true ⟨"ready", some 5, none, none⟩
    (some ⟨some "a@b.c"⟩) true 9 (Or.inr (by decide))

namespace Recs

/-- Python min over a list (the code guards against the empty case). -/
def pyMin : List ℚ → ℚ
  | [] => 0
  | x :: xs => xs.foldl min x

/-- Python max over a list (the code guards against the empty case). -/
def pyMax : List ℚ → ℚ
  | [] => 0
  | x :: xs => xs.foldl max x

/-- math.isclose with the default rel_tol=1e-9 and abs_tol=0.0. -/
def mathIsClose (a b : ℚ) : Bool :=
  |a - b| ≤ (1 / 1000000000) * max |a| |b|

/-- Embedding of apps/api/recommendations.py min_max_normalize. -/
def min_max_normalize (values : List ℚ) : List ℚ :=
  match values with
  | [] => []
  | _ =>
      let min_val := pyMin values
      let max_val := pyMax values
      if mathIsClose max_val min_val then
        values.map (fun _ => if 0 < max_val then 1 else 0)
      else
        let scale := max_val - min_val
        values.map (fun v => (v - min_val) / scale)

/-- Embedding of apps/api/recommendations.py _normalize_scores: None becomes
0.0, then min-max normalize. -/
def normalize_scores (values : List (Option ℚ)) : List ℚ :=
  min_max_normalize (values.map (fun v? => v?.getD 0))

end Recs

/-- Folded min is a lower bound of the seed and all elements. -/
theorem foldl_min_le (l : List ℚ) (a : ℚ) :
    l.foldl min a ≤ a ∧ ∀ x ∈ l, l.foldl min a ≤ x := by
  induction l generalizing a with
  | nil => simp
  | cons y ys ih =>
      obtain ⟨h1, h2⟩ := ih (min a y)
      refine ⟨le_trans h1 (min_le_left _ _), ?_⟩
      intro x hx
      rcases List.mem_cons.mp hx with hxy | hxs
      · subst hxy
        exact le_trans h1 (min_le_right _ _)
      · exact h2 x hxs

/-- Folded max is an upper bound of the seed and all elements. -/
theorem le_foldl_max (l : List ℚ) (a : ℚ) :
    a ≤ l.foldl max a ∧ ∀ x ∈ l, x ≤ l.foldl max a := by
  induction l generalizing a with
  | nil => simp
  | cons y ys ih =>
      obtain ⟨h1, h2⟩ := ih (max a y)
      refine ⟨le_trans (le_max_left _ _) h1, ?_⟩
      intro x hx
      rcases List.mem_cons.mp hx with hxy | hxs
      · subst hxy
        exact le_trans (le_max_right _ _) h1
      · exact h2 x hxs

/-- pyMin bounds every member from below. -/
theorem pyMin_le_mem (l : List ℚ) (x : ℚ) (hx : x ∈ l) : Recs.pyMin l ≤ x := by
  cases l with
  | nil => cases hx
  | cons y ys =>
      rcases List.mem_cons.mp hx with h | h
      · subst h
        exact (foldl_min_le ys x).1
      · exact (foldl_min_le ys y).2 x h

/-- pyMax bounds every member from above. -/
theorem mem_le_pyMax (l : List ℚ) (x : ℚ) (hx : x ∈ l) : x ≤ Recs.pyMax l := by
  cases l with
  | nil => cases hx
  | cons y ys =>
      rcases List.mem_cons.mp hx with h | h
      · subst h
        exact (le_foldl_max ys x).1
      · exact (le_foldl_max ys y).2 x h

/-- Folding min or max over a constant-replicate list is the constant. -/
theorem foldl_minmax_replicate (n : ℕ) (c : ℚ) :
    (List.replicate n c).foldl min c = c ∧
    (List.replicate n c).foldl max c = c := by
  induction n with
  | zero => simp
  | succ k ih => simpa [List.replicate_succ] using ih

/-- Unfolding of min_max_normalize on a nonempty list. -/
theorem min_max_normalize_cons (y : ℚ) (ys : List ℚ) :
    Recs.min_max_normalize (y :: ys) =
      if Recs.mathIsClose (Recs.pyMax (y :: ys)) (Recs.pyMin (y :: ys)) then
        (y :: ys).map (fun _ => if 0 < Recs.pyMax (y :: ys) then 1 else 0)
      else
        (y :: ys).map (fun v => (v - Recs.pyMin (y :: ys)) /
          (Recs.pyMax (y :: ys) - Recs.pyMin (y :: ys))) := rfl

/-- C10: for every non-empty score list, min_max_normalize preserves length
and lands in [0, 1]; an all-equal list maps to all 1.0 when the common
value is positive and all 0.0 otherwise; consequently _normalize_scores
sends a pool of equal positive (non-null) scores to all-1.0 component
scores. -/
theorem c10_min_max_normalize :
    (∀ values : List ℚ, values ≠ [] →
      (Recs.min_max_normalize values).length = values.length ∧
      (∀ v ∈ Recs.min_max_normalize values, 0 ≤ v ∧ v ≤ 1)) ∧
    (∀ (n : ℕ) (c : ℚ), 0 < n →
      Recs.min_max_normalize (List.replicate n c) =
        List.replicate n (if 0 < c then 1 else 0)) ∧
    (∀ (n : ℕ) (c : ℚ), 0 < c →
      Recs.normalize_scores (List.replicate (n + 1) (some c)) =
        List.replicate (n + 1) 1) := by
  have hrep : ∀ (n : ℕ) (c : ℚ), 0 < n →
      Recs.min_max_normalize (List.replicate n c) =
        List.replicate n (if 0 < c then 1 else 0) := by
    intro n c hn
    cases n with
    | zero => exact absurd hn (by omega)
    | succ k =>
        rw [List.replicate_succ]
        have hmin : Recs.pyMin (c :: List.replicate k c) = c :=
          (foldl_minmax_replicate k c).1
        have hmax : Recs.pyMax (c :: List.replicate k c) = c :=
          (foldl_minmax_replicate k c).2
        have hclose : Recs.mathIsClose c c = true := by
          simp only [Recs.mathIsClose, sub_self, abs_zero, decide_eq_true_eq]
          positivity
        rw [min_max_normalize_cons, hmin, hmax, hclose, if_pos rfl]
        simp [← List.replicate_succ]
  refine ⟨?_, hrep, ?_⟩
  · intro values hne
    cases values with
    | nil => exact absurd rfl hne
    | cons y ys =>
        rw [min_max_normalize_cons]
        by_cases h : Recs.mathIsClose (Recs.pyMax (y :: ys)) (Recs.pyMin (y :: ys)) = true
        · rw [if_pos h]
          refine ⟨by simp, ?_⟩
          intro v hv
          rcases List.mem_map.mp hv with ⟨x, _, hx⟩
          by_cases hpos : 0 < Recs.pyMax (y :: ys)
          · rw [if_pos hpos] at hx
            rw [← hx]
            norm_num
          · rw [if_neg hpos] at hx
            rw [← hx]
            norm_num
        · rw [if_neg h]
          have hle : Recs.pyMin (y :: ys) ≤ Recs.pyMax (y :: ys) :=
            le_trans (pyMin_le_mem _ y (by simp)) (mem_le_pyMax _ y (by simp))
          have hmm : Recs.pyMin (y :: ys) < Recs.pyMax (y :: ys) := by
            rcases lt_or_eq_of_le hle with hlt | heq
            · exact hlt
            · exfalso
              apply h
              simp only [Recs.mathIsClose, heq, sub_self, abs_zero,
                decide_eq_true_eq]
              positivity
          have hscale : 0 < Recs.pyMax (y :: ys) - Recs.pyMin (y :: ys) :=
            sub_pos.mpr hmm
          refine ⟨by simp, ?_⟩
          intro v hv
          rcases List.mem_map.mp hv with ⟨x, hxmem, hx⟩
          have h1 : Recs.pyMin (y :: ys) ≤ x := pyMin_le_mem _ x hxmem
          have h2 : x ≤ Recs.pyMax (y :: ys) := mem_le_pyMax _ x hxmem
          constructor
          · rw [← hx]
            exact div_nonneg (by linarith) (le_of_lt hscale)
          · rw [← hx, div_le_one hscale]
            linarith
  · intro n c hc
    have h1 : (List.replicate (n + 1) (some c)).map
        (fun v? => v?.getD 0) = List.replicate (n + 1) c := by
      simp
    rw [Recs.normalize_scores, h1, hrep (n + 1) c (by omega), if_pos hc]

/-- Witness for c10_min_max_normalize on a concrete all-equal positive
list. -/
theorem c10_min_max_normalize_witness :
    (0 : ℚ) < 5 ∧
      Recs.min_max_normalize (List.replicate 2 (5 : ℚ)) =
        List.replicate 2 1 := by
  constructor
  · norm_num
  · have h := c10_min_max_normalize.2.1 2 (5 : ℚ) (by norm_num)
    simpa using h

namespace Recs

/-- MMR score of a remaining index inside the selection loop of
max_marginal_relevance: plain relevance while nothing is selected,
lam*relevance - (1-lam)*max-similarity-to-selected afterwards. -/
def mmrScore (lam : ℚ) (relevance : List ℚ) (maxSim : List ℚ)
    (selectedEmpty : Bool) (idx : ℕ) : ℚ :=
  if selectedEmpty then relevance.getD idx 0
  else lam * relevance.getD idx 0 - (1 - lam) * maxSim.getD idx 0

/-- Inner argmax scan of max_marginal_relevance: a candidate replaces the
best when its score is strictly greater, or equal with a smaller index. -/
def mmrPickLoop (score : ℕ → ℚ) : List ℕ → Option (ℕ × ℚ) → Option (ℕ × ℚ)
  | [], best => best
  | idx :: rest, best =>
      let s := score idx
      let better : Bool :=
        match best with
        | none => true
        | some (bi, bs) =>
            decide (bs < s) || (decide (s = bs) && decide (idx < bi))
      mmrPickLoop score rest (if better then some (idx, s) else best)

/-- Best index of one selection step (best_score starts at -inf, modelled by
the empty accumulator). -/
def mmrPick (score : ℕ → ℚ) (remaining : List ℕ) : Option (ℕ × ℚ) :=
  mmrPickLoop score remaining none

/-- Post-selection update of the running max similarities: only remaining
indices are touched, and only when the new similarity is strictly
larger. -/
def updateSims (simIdx : ℕ → ℕ → ℚ) (chosen : ℕ) (remaining : List ℕ)
    (maxSim : List ℚ) : List ℚ :=
  maxSim.mapIdx (fun i v =>
    if i ∈ remaining ∧ v < simIdx i chosen then simIdx i chosen else v)

/-- Selection loop of max_marginal_relevance over index lists; fuel bounds
the iteration count (each pass removes one remaining index, so
remaining.length suffices). -/
def mmrLoop (lam : ℚ) (relevance : List ℚ) (simIdx : ℕ → ℕ → ℚ)
    (limit : ℕ) :
    ℕ → List ℕ → List ℚ → List ℕ → List ℕ
  | 0, _, _, selected => selected
  | fuel + 1, remaining, maxSim, selected =>
      if remaining = [] ∨ ¬selected.length < limit then selected
      else
        match mmrPick
            (mmrScore lam relevance maxSim (selected = [])) remaining with
        | none => selected
        | some (bi, _) =>
            let selected2 := selected ++ [bi]
            let remaining2 := remaining.erase bi
            let maxSim2 := updateSims simIdx bi remaining2 maxSim
            mmrLoop lam relevance simIdx limit fuel remaining2 maxSim2
              selected2

/-- Indices chosen by max_marginal_relevance, in selection order. -/
def mmrSelectIdx {α : Type} [Inhabited α] (items : List α)
    (score_fn : α → ℚ) (similarity_fn : α → α → ℚ) (limit : ℕ)
    (lambda_weight : ℚ) : List ℕ :=
  let relevance := items.map score_fn
  let lam := max 0 (min 1 lambda_weight)
  let simIdx : ℕ → ℕ → ℚ := fun i j =>
    similarity_fn (items.getD i default) (items.getD j default)
  mmrLoop lam relevance simIdx limit items.length
    (List.range items.length) (List.replicate items.length 0) []

/-- Embedding of apps/api/recommendations.py max_marginal_relevance. -/
def max_marginal_relevance {α : Type} [Inhabited α] (items : List α)
    (score_fn : α → ℚ) (similarity_fn : α → α → ℚ) (limit : ℕ)
    (lambda_weight : ℚ) : List α :=
  if limit = 0 || items.isEmpty then []
  else
    (mmrSelectIdx items score_fn similarity_fn limit lambda_weight).map
      (fun i => items.getD i default)

/-- Descending relevance with ties broken towards the lower index: the
order in which the λ=1 instance of MMR emits indices. -/
def relGe (rel : ℕ → ℚ) (i j : ℕ) : Prop :=
  rel j < rel i ∨ (rel i = rel j ∧ i ≤ j)

instance relGe.decidableRel (rel : ℕ → ℚ) : DecidableRel (relGe rel) :=
  fun i j => by
    unfold relGe
    infer_instance

instance relGe.isTotal (rel : ℕ → ℚ) : IsTotal ℕ (relGe rel) where
  total i j := by
    unfold relGe
    rcases lt_trichotomy (rel i) (rel j) with h | h | h
    · exact Or.inr (Or.inl h)
    · rcases Nat.le_total i j with hij | hij
      · exact Or.inl (Or.inr ⟨h, hij⟩)
      · exact Or.inr (Or.inr ⟨h.symm, hij⟩)
    · exact Or.inl (Or.inl h)

instance relGe.isTrans (rel : ℕ → ℚ) : IsTrans ℕ (relGe rel) where
  trans i j k hij hjk := by
    unfold relGe at hij hjk ⊢
    rcases hij with h1 | ⟨h1, h1n⟩ <;> rcases hjk with h2 | ⟨h2, h2n⟩
    · exact Or.inl (lt_trans h2 h1)
    · exact Or.inl (h2 ▸ h1)
    · exact Or.inl (h1 ▸ h2)
    · exact Or.inr ⟨h1.trans h2, h1n.trans h2n⟩

instance relGe.isAntisymm (rel : ℕ → ℚ) : IsAntisymm ℕ (relGe rel) where
  antisymm i j hij hji := by
    unfold relGe at hij hji
    rcases hij with h1 | ⟨h1, h1n⟩ <;> rcases hji with h2 | ⟨h2, h2n⟩ <;>
      first | omega | (exfalso; linarith)

end Recs

/-- Scan invariant of mmrPickLoop: from a consistent best pair it returns
the minimum-index maximum over the virtual best and the rest of the
list. -/
theorem mmrPickLoop_go (score : ℕ → ℚ) (l : List ℕ) :
    ∀ bi : ℕ, ∃ i s,
      Recs.mmrPickLoop score l (some (bi, score bi)) = some (i, s) ∧
      s = score i ∧ (i = bi ∨ i ∈ l) ∧
      (score bi < s ∨ (score bi = s ∧ i ≤ bi)) ∧
      (∀ j ∈ l, score j < s ∨ (score j = s ∧ i ≤ j)) := by
  induction l with
  | nil =>
      intro bi
      exact ⟨bi, score bi, rfl, rfl, Or.inl rfl, Or.inr ⟨rfl, le_refl _⟩,
        by simp⟩
  | cons idx rest ih =>
      intro bi
      by_cases h1 : score bi < score idx
      · have hred : Recs.mmrPickLoop score (idx :: rest)
            (some (bi, score bi)) =
            Recs.mmrPickLoop score rest (some (idx, score idx)) := by
          simp [Recs.mmrPickLoop, h1]
        obtain ⟨i, s, heq, hs, hmem, hbest, hall⟩ := ih idx
        refine ⟨i, s, hred.trans heq, hs, ?_, ?_, ?_⟩
        · rcases hmem with h | h
          · exact Or.inr (h ▸ List.mem_cons_self idx rest)
          · exact Or.inr (List.mem_cons_of_mem idx h)
        · rcases hbest with h | ⟨h, _⟩
          · exact Or.inl (lt_trans h1 h)
          · exact Or.inl (by linarith)
        · intro j hj
          rcases List.mem_cons.mp hj with h | h
          · exact h ▸ hbest
          · exact hall j h
      · by_cases heq2 : score idx = score bi
        · by_cases hlt : idx < bi
          · have hred : Recs.mmrPickLoop score (idx :: rest)
                (some (bi, score bi)) =
                Recs.mmrPickLoop score rest (some (idx, score idx)) := by
              simp [Recs.mmrPickLoop, h1, heq2, hlt]
            obtain ⟨i, s, heq, hs, hmem, hbest, hall⟩ := ih idx
            refine ⟨i, s, hred.trans heq, hs, ?_, ?_, ?_⟩
            · rcases hmem with h | h
              · exact Or.inr (h ▸ List.mem_cons_self idx rest)
              · exact Or.inr (List.mem_cons_of_mem idx h)
            · rcases hbest with h | ⟨h, hle⟩
              · exact Or.inl (by linarith)
              · exact Or.inr ⟨by linarith, le_trans hle (le_of_lt hlt)⟩
            · intro j hj
              rcases List.mem_cons.mp hj with h | h
              · exact h ▸ hbest
              · exact hall j h
          · have hred : Recs.mmrPickLoop score (idx :: rest)
                (some (bi, score bi)) =
                Recs.mmrPickLoop score rest (some (bi, score bi)) := by
              simp [Recs.mmrPickLoop, h1, heq2, hlt]
            obtain ⟨i, s, heq, hs, hmem, hbest, hall⟩ := ih bi
            refine ⟨i, s, hred.trans heq, hs, ?_, hbest, ?_⟩
            · rcases hmem with h | h
              · exact Or.inl h
              · exact Or.inr (List.mem_cons_of_mem idx h)
            · intro j hj
              rcases List.mem_cons.mp hj with h | h
              · subst h
                rcases hbest with hb | ⟨hb, hble⟩
                · exact Or.inl (by linarith)
                · exact Or.inr ⟨by linarith, by omega⟩
              · exact hall j h
        · have hred : Recs.mmrPickLoop score (idx :: rest)
              (some (bi, score bi)) =
              Recs.mmrPickLoop score rest (some (bi, score bi)) := by
            simp [Recs.mmrPickLoop, h1, heq2]
          obtain ⟨i, s, heq, hs, hmem, hbest, hall⟩ := ih bi
          have hidxlt : score idx < score bi := by
            rcases lt_trichotomy (score idx) (score bi) with h | h | h
            · exact h
            · exact absurd h heq2
            · exact absurd h h1
          refine ⟨i, s, hred.trans heq, hs, ?_, hbest, ?_⟩
          · rcases hmem with h | h
            · exact Or.inl h
            · exact Or.inr (List.mem_cons_of_mem idx h)
          · intro j hj
            rcases List.mem_cons.mp hj with h | h
            · subst h
              rcases hbest with hb | ⟨hb, _⟩
              · exact Or.inl (by linarith)
              · exact Or.inl (by linarith)
            · exact hall j h

/-- mmrPick on a non-empty remaining list returns the minimum-index argmax:
any other remaining index has a strictly smaller score, or an equal score
and a larger-or-equal index. -/
theorem mmrPick_spec (score : ℕ → ℚ) (remaining : List ℕ)
    (hne : remaining ≠ []) :
    ∃ i, Recs.mmrPick score remaining = some (i, score i) ∧
      i ∈ remaining ∧
      ∀ j ∈ remaining, score j < score i ∨ (score j = score i ∧ i ≤ j) := by
  cases remaining with
  | nil => exact absurd rfl hne
  | cons x rest =>
      have hstep : Recs.mmrPick score (x :: rest) =
          Recs.mmrPickLoop score rest (some (x, score x)) := by
        simp [Recs.mmrPick, Recs.mmrPickLoop]
      obtain ⟨i, s, heq, hs, hmem, hbest, hall⟩ := mmrPickLoop_go score rest x
      subst hs
      refine ⟨i, hstep.trans heq, ?_, ?_⟩
      · rcases hmem with h | h
        · exact h ▸ List.mem_cons_self x rest
        · exact List.mem_cons_of_mem x h
      · intro j hj
        rcases List.mem_cons.mp hj with h | h
        · exact h ▸ hbest
        · exact hall j h

/-- The MMR selection loop never grows past the limit. -/
theorem mmrLoop_length_le (lam : ℚ) (relevance : List ℚ)
    (simIdx : ℕ → ℕ → ℚ) (limit : ℕ) :
    ∀ (fuel : ℕ) (remaining : List ℕ) (maxSim : List ℚ)
      (selected : List ℕ), selected.length ≤ limit →
      (Recs.mmrLoop lam relevance simIdx limit fuel remaining maxSim
        selected).length ≤ limit := by
  intro fuel
  induction fuel with
  | zero => intro remaining maxSim selected h; exact h
  | succ k ih =>
      intro remaining maxSim selected h
      rw [Recs.mmrLoop]
      split_ifs with hstop
      · exact h
      · push_neg at hstop
        have hlt : selected.length < limit := hstop.2
        cases hpick : Recs.mmrPick
            (Recs.mmrScore lam relevance maxSim (selected = []))
            remaining with
        | none => exact h
        | some p =>
            obtain ⟨bi, s⟩ := p
            exact ih (remaining.erase bi) _ (selected ++ [bi])
              (by simp; omega)

/-- The MMR selection loop keeps the selected indices duplicate-free. -/
theorem mmrLoop_nodup (lam : ℚ) (relevance : List ℚ)
    (simIdx : ℕ → ℕ → ℚ) (limit : ℕ) :
    ∀ (fuel : ℕ) (remaining : List ℕ) (maxSim : List ℚ)
      (selected : List ℕ), selected.Nodup → remaining.Nodup →
      (∀ i ∈ selected, i ∉ remaining) →
      (Recs.mmrLoop lam relevance simIdx limit fuel remaining maxSim
        selected).Nodup := by
  intro fuel
  induction fuel with
  | zero => intro remaining maxSim selected hs _ _; exact hs
  | succ k ih =>
      intro remaining maxSim selected hs hr hdisj
      rw [Recs.mmrLoop]
      split_ifs with hstop
      · exact hs
      · push_neg at hstop
        have hne : remaining ≠ [] := hstop.1
        obtain ⟨i, hpick, himem, _⟩ := mmrPick_spec
          (Recs.mmrScore lam relevance maxSim (selected = [])) remaining hne
        rw [hpick]
        have hinotsel : i ∉ selected := fun hin => hdisj i hin himem
        apply ih
        · simp [List.nodup_append, hs, hinotsel]
        · exact hr.erase i
        · intro j hj
          rcases List.mem_append.mp hj with hjs | hji
          · intro hjr
            exact hdisj j hjs (List.erase_subset i remaining hjr)
          · have : j = i := by simpa using hji
            subst this
            exact hr.not_mem_erase

/-- With λ = 1 the MMR score collapses to the plain relevance. -/
theorem mmrScore_one (relevance maxSim : List ℚ) (b : Bool) (idx : ℕ) :
    Recs.mmrScore 1 relevance maxSim b idx = relevance.getD idx 0 := by
  unfold Recs.mmrScore
  cases b <;> simp <;> ring

/-- The minimum-index argmax returned by one MMR step is the head of the
stable descending sort of the remaining indices, and erasing it sorts to
the tail. -/
theorem pick_head_sorted (rel : ℕ → ℚ) (remaining : List ℕ) (i : ℕ)
    (hmem : i ∈ remaining)
    (hdom : ∀ j ∈ remaining, rel j < rel i ∨ (rel j = rel i ∧ i ≤ j)) :
    List.insertionSort (Recs.relGe rel) remaining =
      i :: List.insertionSort (Recs.relGe rel) (remaining.erase i) := by
  have hperm : List.Perm (List.insertionSort (Recs.relGe rel) remaining)
      remaining :=
    List.perm_insertionSort _ _
  have hsorted : List.Sorted (Recs.relGe rel)
      (List.insertionSort (Recs.relGe rel) remaining) :=
    List.sorted_insertionSort _ _
  rcases hS : List.insertionSort (Recs.relGe rel) remaining with _ | ⟨h0, t⟩
  case nil =>
      rw [hS] at hperm
      exact absurd (hperm.symm.mem_iff.mp hmem) (List.not_mem_nil i)
  case cons =>
      rw [hS] at hperm hsorted
      have hh0mem : h0 ∈ remaining := hperm.mem_iff.mp (by simp)
      have hh0 : h0 = i := by
        rcases List.mem_cons.mp (hperm.symm.mem_iff.mp hmem) with h | h
        · exact h.symm
        · have hge : Recs.relGe rel h0 i :=
            (List.sorted_cons.mp hsorted).1 i h
          rcases hdom h0 hh0mem with hd | ⟨hd, hdle⟩
          · rcases hge with hg | ⟨hg, _⟩
            · exact absurd (lt_trans hd hg) (lt_irrefl _)
            · exact absurd hd (by rw [hg]; exact lt_irrefl _)
          · rcases hge with hg | ⟨_, hgle⟩
            · exact absurd hg (by rw [hd]; exact lt_irrefl _)
            · omega
      subst hh0
      congr 1
      have hperm2 : List.Perm t (remaining.erase h0) :=
        (hperm.trans (List.perm_cons_erase hmem)).cons_inv
      have hst : List.Sorted (Recs.relGe rel) t :=
        (List.sorted_cons.mp hsorted).2
      exact List.eq_of_perm_of_sorted
        (hperm2.trans (List.perm_insertionSort _ _).symm) hst
        (List.sorted_insertionSort _ _)

/-- With λ = 1 the MMR loop appends the stable descending sort of the
remaining indices, truncated to the residual budget. -/
theorem mmrLoop_lam1 (relevance : List ℚ) (simIdx : ℕ → ℕ → ℚ)
    (limit : ℕ) :
    ∀ (fuel : ℕ) (remaining : List ℕ) (maxSim : List ℚ)
      (selected : List ℕ), remaining.length ≤ fuel →
      Recs.mmrLoop 1 relevance simIdx limit fuel remaining maxSim selected =
        selected ++
          (List.insertionSort (Recs.relGe (fun i => relevance.getD i 0))
            remaining).take (limit - selected.length) := by
  intro fuel
  induction fuel with
  | zero =>
      intro remaining maxSim selected h
      have : remaining = [] := List.length_eq_zero.mp (by omega)
      subst this
      simp [Recs.mmrLoop]
  | succ k ih =>
      intro remaining maxSim selected h
      rw [Recs.mmrLoop]
      split_ifs with hstop
      · rcases hstop with hnil | hfull
        · subst hnil
          simp
        · have : limit - selected.length = 0 := by omega
          simp [this]
      · push_neg at hstop
        obtain ⟨hne, hlt⟩ := hstop
        have hscore : Recs.mmrScore 1 relevance maxSim
            (decide (selected = [])) =
            (fun idx => relevance.getD idx 0) :=
          funext (fun idx => mmrScore_one relevance maxSim _ idx)
        obtain ⟨i, hpick, himem, hdom⟩ := mmrPick_spec
          (Recs.mmrScore 1 relevance maxSim (decide (selected = [])))
          remaining hne
        rw [hpick]
        dsimp only
        have hdom2 : ∀ j ∈ remaining,
            relevance.getD j 0 < relevance.getD i 0 ∨
            (relevance.getD j 0 = relevance.getD i 0 ∧ i ≤ j) := by
          intro j hj
          have := hdom j hj
          rwa [hscore] at this
        have hlen : (remaining.erase i).length ≤ k := by
          have := List.length_erase_of_mem himem
          have hpos : 0 < remaining.length := List.length_pos.mpr hne
          omega
        rw [ih (remaining.erase i) _ (selected ++ [i]) hlen]
        rw [pick_head_sorted (fun idx => relevance.getD idx 0) remaining i
          himem hdom2]
        have hcnt : limit - selected.length =
            (limit - (selected ++ [i]).length) + 1 := by
          simp
          omega
        rw [hcnt, List.take_succ_cons, List.append_assoc]
        rfl

/-- Inserting an index below every member of an index list commutes with
mapping to items, since the index tie-break then agrees with the plain
non-strict score comparison. -/
theorem orderedInsert_map {α : Type} [Inhabited α] (items : List α)
    (f : α → ℚ) (rel : ℕ → ℚ) (x : ℕ) :
    ∀ L : List ℕ, (∀ j ∈ L, x < j) →
      rel x = f (items.getD x default) →
      (∀ j ∈ L, rel j = f (items.getD j default)) →
      (List.orderedInsert (Recs.relGe rel) x L).map
          (fun i => items.getD i default) =
        List.orderedInsert (fun a b => f b ≤ f a) (items.getD x default)
          (L.map (fun i => items.getD i default)) := by
  intro L
  induction L with
  | nil =>
      intro _ _ _
      simp [List.orderedInsert]
  | cons b l ih =>
      intro hgt hx hl
      have hxb : x < b := hgt b (by simp)
      have hb : rel b = f (items.getD b default) := hl b (by simp)
      by_cases hc : f (items.getD b default) ≤ f (items.getD x default)
      · have hr : Recs.relGe rel x b := by
          unfold Recs.relGe
          rw [hx, hb]
          rcases lt_or_eq_of_le hc with h | h
          · exact Or.inl h
          · exact Or.inr ⟨h.symm, le_of_lt hxb⟩
        simp only [List.orderedInsert, if_pos hr, if_pos hc, List.map_cons]
      · have hr : ¬Recs.relGe rel x b := by
          unfold Recs.relGe
          rw [hx, hb]
          push_neg
          exact ⟨le_of_lt (lt_of_not_le hc), fun h => absurd h.ge hc⟩
        simp only [List.orderedInsert, if_neg hr, if_neg hc, List.map_cons]
        rw [ih (fun j hj => hgt j (List.mem_cons_of_mem b hj)) hx
          (fun j hj => hl j (List.mem_cons_of_mem b hj))]

/-- Sorting an increasing index list by relGe and mapping to items is the
stable descending item sort. -/
theorem insertionSort_map {α : Type} [Inhabited α] (items : List α)
    (f : α → ℚ) (rel : ℕ → ℚ) :
    ∀ l : List ℕ, l.Pairwise (· < ·) →
      (∀ j ∈ l, rel j = f (items.getD j default)) →
      (List.insertionSort (Recs.relGe rel) l).map
          (fun i => items.getD i default) =
        List.insertionSort (fun a b => f b ≤ f a)
          (l.map (fun i => items.getD i default)) := by
  intro l
  induction l with
  | nil =>
      intro _ _
      simp
  | cons x xs ih =>
      intro hpw hrel
      have hperm : List.Perm (List.insertionSort (Recs.relGe rel) xs) xs :=
        List.perm_insertionSort _ _
      have hgt : ∀ j ∈ List.insertionSort (Recs.relGe rel) xs, x < j := by
        intro j hj
        exact (List.pairwise_cons.mp hpw).1 j (hperm.mem_iff.mp hj)
      simp only [List.insertionSort, List.map_cons]
      rw [orderedInsert_map items f rel x _ hgt (hrel x (by simp))
        (fun j hj => hrel j (List.mem_cons_of_mem x (hperm.mem_iff.mp hj)))]
      rw [ih (List.pairwise_cons.mp hpw).2
        (fun j hj => hrel j (List.mem_cons_of_mem x hj))]

/-- Mapping getD over the index range recovers the list. -/
theorem map_getD_range {α : Type} [Inhabited α] (items : List α) :
    (List.range items.length).map (fun i => items.getD i default) =
      items := by
  apply List.ext_getElem
  · simp
  · intro n h1 h2
    simp [List.getD_eq_getElem?_getD, List.getElem?_eq_getElem h2]

/-- Relevance lookups agree with scoring the default-index item. -/
theorem relevance_getD {α : Type} [Inhabited α] (items : List α)
    (f : α → ℚ) (j : ℕ) (h : j < items.length) :
    (items.map f).getD j 0 = f (items.getD j default) := by
  have h2 : j < (items.map f).length := by simpa using h
  simp [List.getD_eq_getElem?_getD, List.getElem?_eq_getElem h2,
    List.getElem?_eq_getElem h]

/-- C3: max_marginal_relevance returns at most limit items and never picks
an index twice; with lambda_weight = 1 the output is the stable descending
sort of the items by relevance (ties keep the original order), truncated to
limit; at every selection step the scan picks, among equal MMR scores, the
lowest original index; and on relevance [0.9, 0.9, 0.5] with zero pairwise
similarity, λ = 0.7 and limit 2 the output is the first two items in their
original order. -/
theorem c3_mmr_properties :
    (∀ {α : Type} [Inhabited α] (items : List α) (f : α → ℚ)
        (g : α → α → ℚ) (limit : ℕ) (lam : ℚ),
      (Recs.max_marginal_relevance items f g limit lam).length ≤ limit) ∧
    (∀ {α : Type} [Inhabited α] (items : List α) (f : α → ℚ)
        (g : α → α → ℚ) (limit : ℕ) (lam : ℚ),
      (Recs.mmrSelectIdx items f g limit lam).Nodup) ∧
    (∀ {α : Type} [Inhabited α] (items : List α) (f : α → ℚ)
        (g : α → α → ℚ) (limit : ℕ),
      Recs.max_marginal_relevance items f g limit 1 =
        (List.insertionSort (fun a b => f b ≤ f a) items).take limit) ∧
    (∀ (score : ℕ → ℚ) (remaining : List ℕ), remaining ≠ [] →
      ∃ i, Recs.mmrPick score remaining = some (i, score i) ∧
        i ∈ remaining ∧
        ∀ j ∈ remaining,
          score j < score i ∨ (score j = score i ∧ i ≤ j)) ∧
    (Recs.max_marginal_relevance [(10 : ℕ), 20, 30]
        (fun x => if x = 10 then 9 / 10 else if x = 20 then 9 / 10 else 1 / 2)
        (fun _ _ => 0) 2 (7 / 10) = [10, 20]) := by
  refine ⟨?_, ?_, ?_, mmrPick_spec, ?_⟩
  · intro α _ items f g limit lam
    unfold Recs.max_marginal_relevance
    split_ifs with hc
    · simp
    · rw [List.length_map]
      exact mmrLoop_length_le _ _ _ limit _ _ _ [] (Nat.zero_le _)
  · intro α _ items f g limit lam
    unfold Recs.mmrSelectIdx
    exact mmrLoop_nodup _ _ _ limit _ _ _ [] List.nodup_nil
      (List.nodup_range _) (by simp)
  · intro α _ items f g limit
    cases items with
    | nil =>
        simp [Recs.max_marginal_relevance]
    | cons a rest =>
        by_cases hlim : limit = 0
        · subst hlim
          simp [Recs.max_marginal_relevance]
        · have hcond : ¬((limit = 0 || (a :: rest).isEmpty) = true) := by
            simp [hlim]
          rw [Recs.max_marginal_relevance, if_neg hcond]
          rw [Recs.mmrSelectIdx]
          have hlam : max (0 : ℚ) (min 1 1) = 1 := by norm_num
          rw [hlam]
          rw [mmrLoop_lam1 _ _ limit ((a :: rest).length)
            (List.range (a :: rest).length) _ [] (by simp)]
          simp only [List.nil_append, List.length_nil, Nat.sub_zero,
            List.map_take]
          rw [insertionSort_map (a :: rest) f _ (List.range (a :: rest).length)
            (List.pairwise_lt_range _)
            (fun j hj => relevance_getD (a :: rest) f j (List.mem_range.mp hj))]
          rw [map_getD_range]
  · norm_num [Recs.max_marginal_relevance, Recs.mmrSelectIdx, Recs.mmrLoop,
      Recs.mmrPick, Recs.mmrPickLoop, Recs.mmrScore, Recs.updateSims,
      List.range_succ]
    decide

/-- Witness for c3_mmr_properties: the tie-break conjunct applied to a
concrete remaining list with equal scores. -/
theorem c3_mmr_properties_witness :
    ∃ i, Recs.mmrPick (fun j => if j = 0 then 1 else if j = 1 then 1 else 0)
        [0, 1, 2] = some (i,
          (fun j : ℕ => if j = 0 then (1 : ℚ) else if j = 1 then 1 else 0) i) ∧
      i ∈ [0, 1, 2] ∧
      ∀ j ∈ [0, 1, 2],
        (fun j : ℕ => if j = 0 then (1 : ℚ) else if j = 1 then 1 else 0) j <
            (fun j : ℕ => if j = 0 then (1 : ℚ) else if j = 1 then 1 else 0) i ∨
          ((fun j : ℕ => if j = 0 then (1 : ℚ) else if j = 1 then 1 else 0) j =
            (fun j : ℕ => if j = 0 then (1 : ℚ) else if j = 1 then 1 else 0) i ∧
            i ≤ j) :=
  c3_mmr_properties.2.2.2.1
    (fun j => if j = 0 then 1 else if j = 1 then 1 else 0) [0, 1, 2]
    (by decide)

namespace Recs

/-- Quota and tuning constants of apps/api/recommendations.py. -/
def MAX_TAG_SEEDS : ℕ := 20

/-- Entity seed cap. -/
def MAX_ENTITY_SEEDS : ℕ := 15

/-- Topic seed cap. -/
def MAX_TOPIC_SEEDS : ℕ := 5

/-- Default target for the blended feed. -/
def TARGET_TOTAL_RECOMMENDATIONS : ℕ := 100

/-- OS-lane quota. -/
def OS_LANE_QUOTA : ℕ := 70

/-- Graph-lane quota. -/
def GRAPH_LANE_QUOTA : ℕ := 30

/-- λ used by all MMR calls. -/
def MMR_LAMBDA : ℚ := 7 / 10

/-- BM25 recall size. -/
def OS_BM25_RECALL_K : ℕ := 500

/-- Cosine blend weight of the OS lane. -/
def OS_COSINE_WEIGHT : ℚ := 1 / 2

/-- BM25 blend weight of the OS lane. -/
def OS_BM25_WEIGHT : ℚ := 1 / 2

/-- Lower cosine cut of the graph lane. -/
def GRAPH_COSINE_MIN : ℚ := 1 / 10

/-- Upper cosine cut of the graph lane. -/
def GRAPH_COSINE_MAX : ℚ := 9 / 10

/-- Source fields requested from the videos index. -/
def OS_SOURCE_FIELDS : List String :=
  ["title", "description", "content_type", "language", "topics", "entities",
   "tags", "duration_seconds", "created_at", "updated_at", "thumbnail_url",
   "status", "embedding"]

/-- Python str.lower restricted to ASCII. -/
def pyLower (s : String) : String :=
  ⟨s.data.map Char.toLower⟩

/-- One nested entity/tag entry of an indexed document. -/
structure NamePair where
  canonical_name : Option String
  name : Option String
  deriving Repr, DecidableEq, Inhabited

/-- The document fields the recommendation lanes read. -/
structure Doc where
  entities : List NamePair
  tags : List NamePair
  embedding : Option (List ℚ)
  deriving Repr, DecidableEq, Inhabited

/-- The empty document used when a source is missing. -/
def emptyDoc : Doc := ⟨[], [], none⟩

/-- Embedding of _safe_get_embedding (the isinstance/float checks collapse
in the typed model). -/
def safe_get_embedding (doc : Doc) : Option (List ℚ) :=
  doc.embedding

/-- Token set of _candidate_similarity: canonical_name or name or "",
stripped, lowered, blanks dropped; the Python set is modelled as a
first-occurrence deduplicated list. -/
def toTokens (doc : Doc) : List String :=
  ((((doc.entities ++ doc.tags).map
      (fun e => pyStrip (pyOrStr e.canonical_name (pyOrStr e.name "")))).filter
    (fun v => !(v == ""))).map pyLower).dedup

/-- Embedding of _candidate_similarity: Jaccard over entity/tag canonical
names of the two documents. -/
def candidate_similarity (a b : Doc) : ℚ :=
  let a_tokens := toTokens a
  let b_tokens := toTokens b
  if a_tokens = [] ∨ b_tokens = [] then 0
  else
    let inter := (a_tokens.filter (fun t => t ∈ b_tokens)).length
    let union :=
      (a_tokens ++ b_tokens.filter (fun t => ¬t ∈ a_tokens)).length
    if union ≤ 0 then 0 else (inter : ℚ) / union

/-- Seed record of the recommendation engine. -/
structure Seed where
  canonical_name : String
  name : String
  weight : ℚ
  id : Option String
  deriving Repr, DecidableEq, Inhabited

/-- History entry of a seed bundle. -/
structure HistoryEntry where
  video_id : String
  last_watched_at : Option ℕ
  recency_weight : ℚ
  deriving Repr, DecidableEq, Inhabited

/-- Seed bundle produced by build_seed_bundle. -/
structure SeedBundle where
  history : List HistoryEntry
  topics : List Seed
  entities : List Seed
  tags : List Seed
  user_embedding : Option (List ℚ)
  deriving Repr, DecidableEq, Inhabited

/-- Python sorted(key=f, reverse=True): stable descending sort, modelled by
insertion sort (both are stable, hence produce the same list). -/
def sortDescBy {α : Type} (f : α → ℚ) (l : List α) : List α :=
  List.insertionSort (fun a b => f b ≤ f a) l

/-- The per-category loop of _build_bm25_terms: strip the display name,
skip blanks and case-insensitive duplicates, and append to the running
seen/terms accumulators. -/
def addSeedsLoop (seen terms : List String) : List Seed → List String × List String
  | [] => (seen, terms)
  | seed :: rest =>
      let name := pyStrip seed.name
      if name = "" then addSeedsLoop seen terms rest
      else if pyLower name ∈ seen then addSeedsLoop seen terms rest
      else addSeedsLoop (seen ++ [pyLower name]) (terms ++ [name]) rest

/-- Embedding of _build_bm25_terms: tags (top 20 by weight), then entities
(top 15), then topics (top 5), sharing one case-insensitive seen set. -/
def build_bm25_terms (b : SeedBundle) : List String :=
  let st1 := addSeedsLoop [] [] ((sortDescBy (·.weight) b.tags).take MAX_TAG_SEEDS)
  let st2 := addSeedsLoop st1.1 st1.2
    ((sortDescBy (·.weight) b.entities).take MAX_ENTITY_SEEDS)
  let st3 := addSeedsLoop st2.1 st2.2
    ((sortDescBy (·.weight) b.topics).take MAX_TOPIC_SEEDS)
  st3.2

/-- JSON-shaped request bodies. -/
inductive Jx where
  | str (s : String)
  | num (q : ℚ)
  | bool (b : Bool)
  | arr (xs : List Jx)
  | obj (fields : List (String × Jx))

/-- Lookup of a top-level object field. -/
def Jx.get? (j : Jx) (key : String) : Option Jx :=
  match j with
  | .obj fields => (fields.find? (fun kv => kv.1 == key)).map (·.2)
  | _ => none

/-- One nested should clause of the BM25 body. -/
def nestedClause (path field query_text : String) (boost : ℚ) : Jx :=
  .obj [("nested", .obj [
    ("path", .str path),
    ("score_mode", .str "max"),
    ("query", .obj [("match", .obj [(field, .obj [
      ("query", .str query_text), ("operator", .str "or")])])]),
    ("boost", .num boost)])]

/-- The request body built by _execute_bm25_search. -/
def bm25Body (query_text : String) (excludes : List String) : Jx :=
  .obj [
    ("size", .num (OS_BM25_RECALL_K : ℚ)),
    ("track_total_hits", .bool false),
    ("_source", .arr (OS_SOURCE_FIELDS.map .str)),
    ("query", .obj [("bool", .obj [
      ("must_not", .arr (if excludes = [] then []
        else [.obj [("ids", .obj [("values", .arr (excludes.map .str))])]])),
      ("should", .arr [
        .obj [("multi_match", .obj [
          ("query", .str query_text),
          ("fields", .arr [.str "title^3", .str "description^2"]),
          ("type", .str "best_fields")])],
        nestedClause "tags" "tags.name" query_text 2,
        nestedClause "entities" "entities.name" query_text 2,
        nestedClause "topics" "topics.name" query_text 1]),
      ("minimum_should_match", .num 1),
      ("filter", .arr [.obj [("term", .obj [("status", .str "ready")])]])])])]

/-- One hit of an OpenSearch response. -/
structure Hit where
  hit_id : Option String
  hit_score : Option ℚ
  hit_source : Option Doc
  deriving Repr, DecidableEq, Inhabited

/-- Embedding of _execute_bm25_search: empty terms or an all-blank query
text return [] without issuing a request; otherwise a single request with
the bm25Body is sent (the index response is the search oracle). -/
def execute_bm25_search (search : Jx → List Hit) (terms : List String)
    (excludes : List String) : List Hit :=
  if terms = [] then []
  else
    let query_text :=
      String.intercalate " "
        ((terms.filter (fun v => !(pyStrip v == ""))).map pyStrip)
    if query_text = "" then []
    else search (bm25Body query_text excludes)

/-- OS-lane candidate record. -/
structure OSCandidate where
  video_id : String
  document : Doc
  embedding : Option (List ℚ)
  cosine_score : Option ℚ
  bm25_score : Option ℚ
  cosine_norm : ℚ
  bm25_norm : ℚ
  lane_score : ℚ
  sources : List String
  deriving Repr, DecidableEq, Inhabited

/-- Embedding of _build_candidates_from_bm25: keep hits with a truthy _id,
dropping duplicates, carrying the source document and BM25 score. -/
def buildCandidatesLoop (seen : List String) : List Hit → List OSCandidate
  | [] => []
  | hit :: rest =>
      match hit.hit_id with
      | none => buildCandidatesLoop seen rest
      | some raw_id =>
          if raw_id = "" then buildCandidatesLoop seen rest
          else if raw_id ∈ seen then buildCandidatesLoop seen rest
          else
            let source_doc := hit.hit_source.getD emptyDoc
            { video_id := raw_id
              document := source_doc
              embedding := safe_get_embedding source_doc
              cosine_score := none
              bm25_score := some (hit.hit_score.getD 0)
              cosine_norm := 0
              bm25_norm := 0
              lane_score := 0
              sources := ["bm25"] } :: buildCandidatesLoop (seen ++ [raw_id]) rest

/-- Entry point of _build_candidates_from_bm25. -/
def build_candidates_from_bm25 (bm25_hits : List Hit) : List OSCandidate :=
  buildCandidatesLoop [] bm25_hits

/-- Embedding of _score_os_candidates (functional form of the in-place
mutation): normalize cosine and BM25 independently and blend 0.5/0.5. -/
def score_os_candidates (candidates : List OSCandidate) : List OSCandidate :=
  let cosine_norms := normalize_scores (candidates.map (·.cosine_score))
  let bm25_norms := normalize_scores (candidates.map (·.bm25_score))
  (candidates.zip (cosine_norms.zip bm25_norms)).map
    (fun p =>
      { p.1 with
        cosine_norm := p.2.1
        bm25_norm := p.2.2
        lane_score := OS_COSINE_WEIGHT * p.2.1 + OS_BM25_WEIGHT * p.2.2 })

/-- OS-lane result record. -/
structure OSLaneResult where
  shortlist : List OSCandidate
  candidates : List OSCandidate
  bm25_terms : List String
  deriving Repr, DecidableEq, Inhabited

/-- Python truthiness of the optional user embedding (None and the empty
list are falsy). -/
def hasUserVec (b : SeedBundle) : Bool :=
  match b.user_embedding with
  | none => false
  | some v => !(v.isEmpty)

/-- Embedding of run_opensearch_lane.  The OpenSearch client, the search
request and cosine_similarity (whose float sqrt is not representable in ℚ)
are oracles. -/
def run_opensearch_lane (has_client : Bool) (search : Jx → List Hit)
    (cos : List ℚ → List ℚ → ℚ) (b : SeedBundle) : OSLaneResult :=
  if !has_client then ⟨[], [], []⟩
  else
    let bm25_terms := build_bm25_terms b
    let exclude_ids := b.history.map (·.video_id)
    let bm25_hits := execute_bm25_search search bm25_terms exclude_ids
    if bm25_hits.isEmpty then ⟨[], [], bm25_terms⟩
    else
      let candidates := build_candidates_from_bm25 bm25_hits
      if candidates.isEmpty then ⟨[], [], bm25_terms⟩
      else
        let withCos :=
          if hasUserVec b then
            candidates.map (fun c =>
              { c with cosine_score := some (match c.embedding with
                  | some e => if e.isEmpty then 0
                      else cos (b.user_embedding.getD []) e
                  | none => 0) })
          else candidates.map (fun c => { c with cosine_score := some 0 })
        let scored := score_os_candidates withCos
        let candidates_sorted := sortDescBy (·.lane_score) scored
        let pool_size := min (4 * OS_LANE_QUOTA) candidates_sorted.length
        let pool := candidates_sorted.take pool_size
        let shortlist_limit := min (2 * OS_LANE_QUOTA) candidates_sorted.length
        if shortlist_limit = 0 then ⟨[], candidates_sorted, bm25_terms⟩
        else
          let shortlist := max_marginal_relevance pool (·.lane_score)
            (fun a b => candidate_similarity a.document b.document)
            shortlist_limit MMR_LAMBDA
          ⟨shortlist, candidates_sorted, bm25_terms⟩

/-- Graph-lane candidate record. -/
structure GraphCandidate where
  video_id : String
  visit_count : ℕ
  document : Doc
  embedding : Option (List ℚ)
  cosine_score : Option ℚ
  cosine_norm : ℚ
  lane_score : ℚ
  sources : List String
  deriving Repr, DecidableEq, Inhabited

/-- Graph-lane result record. -/
structure GraphLaneResult where
  shortlist : List GraphCandidate
  candidates : List GraphCandidate
  deriving Repr, DecidableEq, Inhabited

/-- First-occurrence deduplication (list(dict.fromkeys(...))). -/
def dedupFirst (seen : List String) : List String → List String
  | [] => []
  | x :: rest =>
      if x ∈ seen then dedupFirst seen rest
      else x :: dedupFirst (seen ++ [x]) rest

/-- Embedding of _graph_random_walk_stream: collect truthy Entity and Tag
seed ids, dedupe keeping first occurrences, and run the walks (the Neo4j
driver and the GDS random walk are oracles returning aggregated visit
counts per video id). -/
def graph_random_walk_stream (has_driver : Bool)
    (walk : List String → List (String × ℕ)) (b : SeedBundle) :
    List (String × ℕ) :=
  if !has_driver then []
  else
    let seed_ids := dedupFirst []
      ((b.entities.filterMap (fun s => match s.id with
          | some i => if i = "" then none else some i
          | none => none)) ++
        (b.tags.filterMap (fun s => match s.id with
          | some i => if i = "" then none else some i
          | none => none)))
    if seed_ids = [] then []
    else walk seed_ids

/-- Embedding of _graph_build_candidates_from_walks. -/
def graphCandidatesLoop (excludes : List String) (seen : List String) :
    List (String × ℕ) → List GraphCandidate
  | [] => []
  | row :: rest =>
      let vid := row.1
      if vid = "" ∨ vid ∈ seen ∨ vid ∈ excludes then
        graphCandidatesLoop excludes seen rest
      else
        { video_id := vid
          visit_count := row.2
          document := emptyDoc
          embedding := none
          cosine_score := none
          cosine_norm := 0
          lane_score := 0
          sources := ["graph_walk"] } ::
          graphCandidatesLoop excludes (seen ++ [vid]) rest

/-- Entry point of _graph_build_candidates_from_walks. -/
def graph_build_candidates_from_walks (walk_rows : List (String × ℕ))
    (exclude_video_ids : List String) : List GraphCandidate :=
  if walk_rows = [] then []
  else graphCandidatesLoop exclude_video_ids [] walk_rows

/-- Descending lexicographic sort key of the graph lane:
(lane_score, visit_count), reverse=True, stable. -/
def sortGraphDesc (l : List GraphCandidate) : List GraphCandidate :=
  List.insertionSort
    (fun a b => b.lane_score < a.lane_score ∨
      (b.lane_score = a.lane_score ∧ b.visit_count ≤ a.visit_count)) l

/-- Embedding of run_graph_lane.  The walk, the mget hydration and
cosine_similarity are oracles. -/
def run_graph_lane (has_driver : Bool)
    (walk : List String → List (String × ℕ))
    (fetch : String → Option Doc) (cos : List ℚ → List ℚ → ℚ)
    (b : SeedBundle) (os_top_ids : List String) : GraphLaneResult :=
  let walk_rows := graph_random_walk_stream has_driver walk b
  let exclude_ids := (b.history.map (·.video_id)) ++ os_top_ids
  let candidates := graph_build_candidates_from_walks walk_rows exclude_ids
  let hydrated := candidates.map (fun c =>
    let src := (fetch c.video_id).getD emptyDoc
    { c with document := src, embedding := safe_get_embedding src })
  let filtered :=
    if hasUserVec b then
      (hydrated.map (fun c =>
        { c with cosine_score := some (match c.embedding with
            | some e => if e.isEmpty then 0
                else cos (b.user_embedding.getD []) e
            | none => 0) })).filter
        (fun c => GRAPH_COSINE_MIN ≤ c.cosine_score.getD 0 ∧
          c.cosine_score.getD 0 ≤ GRAPH_COSINE_MAX)
    else hydrated.map (fun c => { c with cosine_score := some 0 })
  let cosine_norms := normalize_scores (filtered.map (·.cosine_score))
  let scored := (filtered.zip cosine_norms).map (fun p =>
    { p.1 with cosine_norm := p.2, lane_score := p.2 })
  let filtered_sorted := sortGraphDesc scored
  let shortlist_limit := min (2 * GRAPH_LANE_QUOTA) filtered_sorted.length
  if shortlist_limit = 0 then ⟨[], filtered_sorted⟩
  else
    let shortlist := max_marginal_relevance filtered_sorted (·.lane_score)
      (fun a b => candidate_similarity a.document b.document)
      shortlist_limit MMR_LAMBDA
    ⟨shortlist, filtered_sorted⟩

/-- Unified candidate of the final blend. -/
structure UnifiedCandidate where
  video_id : String
  lane_score : ℚ
  document : Doc
  lane_source : String
  deriving Repr, DecidableEq, Inhabited

/-- Final result of get_recommendations. -/
structure RecommendationResult where
  video_ids : List String
  sources : List (String × String)
  os_count : ℕ
  graph_count : ℕ
  deriving Repr, DecidableEq, Inhabited

/-- Python dict insertion with overwrite, preserving first-insertion
order. -/
def dictInsert (d : List (String × String)) (k v : String) :
    List (String × String) :=
  if d.any (fun kv => kv.1 == k) then
    d.map (fun kv => if kv.1 == k then (k, v) else kv)
  else d ++ [(k, v)]

/-- Backfill of the lane quotas (recommendations.py lines 1002-1017): a
lane that under-delivers passes its shortfall to the other lane, capped at
that lane's available supply. -/
def laneQuotas (os_available graph_available : ℕ) : ℕ × ℕ :=
  if os_available < OS_LANE_QUOTA then
    (os_available,
      min (GRAPH_LANE_QUOTA + (OS_LANE_QUOTA - os_available)) graph_available)
  else if graph_available < GRAPH_LANE_QUOTA then
    (min (OS_LANE_QUOTA + (GRAPH_LANE_QUOTA - graph_available)) os_available,
      graph_available)
  else (OS_LANE_QUOTA, GRAPH_LANE_QUOTA)

/-- Embedding of the post-lane tail of get_recommendations (lines
1002-1082): apply the quota backfill, select from each shortlist, unify,
run the global MMR, and count lane representation. -/
def blendLanes (os_shortlist : List OSCandidate)
    (graph_shortlist : List GraphCandidate) (target_count : ℕ) :
    RecommendationResult :=
  let q := laneQuotas os_shortlist.length graph_shortlist.length
  let os_selected := os_shortlist.take q.1
  let graph_selected := graph_shortlist.take q.2
  let unified_pool : List UnifiedCandidate :=
    os_selected.map (fun c => ⟨c.video_id, c.lane_score, c.document, "os"⟩) ++
    graph_selected.map (fun c => ⟨c.video_id, c.lane_score, c.document, "graph"⟩)
  let final_ordered := max_marginal_relevance unified_pool (·.lane_score)
    (fun a b => candidate_similarity a.document b.document)
    target_count MMR_LAMBDA
  let video_ids := final_ordered.map (·.video_id)
  let sources := final_ordered.foldl
    (fun d c => dictInsert d c.video_id c.lane_source) []
  ⟨video_ids, sources,
    (sources.filter (fun kv => kv.2 == "os")).length,
    (sources.filter (fun kv => kv.2 == "graph")).length⟩

end Recs

/-- Every index emitted by the MMR loop was selected before or remaining. -/
theorem mmrLoop_mem (lam : ℚ) (relevance : List ℚ) (simIdx : ℕ → ℕ → ℚ)
    (limit : ℕ) :
    ∀ (fuel : ℕ) (remaining : List ℕ) (maxSim : List ℚ)
      (selected : List ℕ) (i : ℕ),
      i ∈ Recs.mmrLoop lam relevance simIdx limit fuel remaining maxSim
        selected →
      i ∈ selected ∨ i ∈ remaining := by
  intro fuel
  induction fuel with
  | zero => intro remaining maxSim selected i h; exact Or.inl h
  | succ k ih =>
      intro remaining maxSim selected i h
      rw [Recs.mmrLoop] at h
      split_ifs at h with hstop
      · exact Or.inl h
      · push_neg at hstop
        obtain ⟨j, hpick, hjmem, _⟩ := mmrPick_spec
          (Recs.mmrScore lam relevance maxSim (selected = [])) remaining
          hstop.1
        rw [hpick] at h
        rcases ih _ _ _ i h with hsel | hrem
        · rcases List.mem_append.mp hsel with hs | hj
          · exact Or.inl hs
          · have : i = j := by simpa using hj
            exact Or.inr (this ▸ hjmem)
        · exact Or.inr (List.erase_subset j remaining hrem)

/-- max_marginal_relevance emits at most limit items. -/
theorem mmr_length_le {α : Type} [Inhabited α] (items : List α)
    (f : α → ℚ) (g : α → α → ℚ) (limit : ℕ) (lam : ℚ) :
    (Recs.max_marginal_relevance items f g limit lam).length ≤ limit := by
  unfold Recs.max_marginal_relevance
  split_ifs with hc
  · simp
  · rw [List.length_map]
    exact mmrLoop_length_le _ _ _ limit _ _ _ [] (Nat.zero_le _)

/-- max_marginal_relevance emits at most as many items as it was given. -/
theorem mmr_length_le_items {α : Type} [Inhabited α] (items : List α)
    (f : α → ℚ) (g : α → α → ℚ) (limit : ℕ) (lam : ℚ) :
    (Recs.max_marginal_relevance items f g limit lam).length ≤
      items.length := by
  unfold Recs.max_marginal_relevance
  split_ifs with hc
  · simp
  · rw [List.length_map]
    have hnd : (Recs.mmrSelectIdx items f g limit lam).Nodup := by
      unfold Recs.mmrSelectIdx
      exact mmrLoop_nodup _ _ _ limit _ _ _ [] List.nodup_nil
        (List.nodup_range _) (by simp)
    have hsub : Recs.mmrSelectIdx items f g limit lam ⊆
        List.range items.length := by
      intro i hi
      unfold Recs.mmrSelectIdx at hi
      rcases mmrLoop_mem _ _ _ limit _ _ _ [] i hi with h | h
      · cases h
      · exact h
    have := (hnd.subperm hsub).length_le
    simpa using this

/-- C4: after backfill each lane's quota never exceeds that lane's
shortlist length; an under-delivering lane shifts exactly its shortfall to
the other lane capped at that lane's supply; and the blended result has at
most target_count items and never more than the two shortlists together
produced. -/
theorem c4_backfill_blend :
    (∀ os_available graph_available : ℕ,
      (Recs.laneQuotas os_available graph_available).1 ≤ os_available ∧
      (Recs.laneQuotas os_available graph_available).2 ≤ graph_available) ∧
    (∀ os_available graph_available : ℕ,
      os_available < Recs.OS_LANE_QUOTA →
      Recs.laneQuotas os_available graph_available =
        (os_available,
          min (Recs.GRAPH_LANE_QUOTA + (Recs.OS_LANE_QUOTA - os_available))
            graph_available)) ∧
    (∀ os_available graph_available : ℕ,
      Recs.OS_LANE_QUOTA ≤ os_available →
      graph_available < Recs.GRAPH_LANE_QUOTA →
      Recs.laneQuotas os_available graph_available =
        (min (Recs.OS_LANE_QUOTA +
            (Recs.GRAPH_LANE_QUOTA - graph_available)) os_available,
          graph_available)) ∧
    (∀ (os_shortlist : List Recs.OSCandidate)
        (graph_shortlist : List Recs.GraphCandidate) (target_count : ℕ),
      (Recs.blendLanes os_shortlist graph_shortlist
          target_count).video_ids.length ≤ target_count ∧
      (Recs.blendLanes os_shortlist graph_shortlist
          target_count).video_ids.length ≤
        os_shortlist.length + graph_shortlist.length) := by
  have hq : ∀ os_available graph_available : ℕ,
      (Recs.laneQuotas os_available graph_available).1 ≤ os_available ∧
      (Recs.laneQuotas os_available graph_available).2 ≤ graph_available := by
    intro osa ga
    unfold Recs.laneQuotas
    unfold Recs.OS_LANE_QUOTA Recs.GRAPH_LANE_QUOTA
    split_ifs with h1 h2 <;> constructor <;> simp <;> omega
  refine ⟨hq, ?_, ?_, ?_⟩
  · intro osa ga h
    unfold Recs.laneQuotas
    rw [if_pos h]
  · intro osa ga h1 h2
    unfold Recs.laneQuotas
    rw [if_neg (by omega), if_pos h2]
  · intro os_shortlist graph_shortlist target_count
    constructor
    · have := mmr_length_le
        ((os_shortlist.take
            (Recs.laneQuotas os_shortlist.length graph_shortlist.length).1).map
          (fun c => (⟨c.video_id, c.lane_score, c.document, "os"⟩ :
            Recs.UnifiedCandidate)) ++
          (graph_shortlist.take
            (Recs.laneQuotas os_shortlist.length graph_shortlist.length).2).map
            (fun c => (⟨c.video_id, c.lane_score, c.document, "graph"⟩ :
              Recs.UnifiedCandidate)))
        (·.lane_score)
        (fun a b => Recs.candidate_similarity a.document b.document)
        target_count Recs.MMR_LAMBDA
      simpa [Recs.blendLanes] using this
    · have hlen := mmr_length_le_items
        ((os_shortlist.take
            (Recs.laneQuotas os_shortlist.length graph_shortlist.length).1).map
          (fun c => (⟨c.video_id, c.lane_score, c.document, "os"⟩ :
            Recs.UnifiedCandidate)) ++
          (graph_shortlist.take
            (Recs.laneQuotas os_shortlist.length graph_shortlist.length).2).map
            (fun c => (⟨c.video_id, c.lane_score, c.document, "graph"⟩ :
              Recs.UnifiedCandidate)))
        (·.lane_score)
        (fun a b => Recs.candidate_similarity a.document b.document)
        target_count Recs.MMR_LAMBDA
      have hb : ((os_shortlist.take
            (Recs.laneQuotas os_shortlist.length graph_shortlist.length).1).map
          (fun c => (⟨c.video_id, c.lane_score, c.document, "os"⟩ :
            Recs.UnifiedCandidate)) ++
          (graph_shortlist.take
            (Recs.laneQuotas os_shortlist.length graph_shortlist.length).2).map
            (fun c => (⟨c.video_id, c.lane_score, c.document, "graph"⟩ :
              Recs.UnifiedCandidate))).length ≤
          os_shortlist.length + graph_shortlist.length := by
        simp only [List.length_append, List.length_map, List.length_take]
        have := hq os_shortlist.length graph_shortlist.length
        omega
      have := le_trans hlen hb
      simpa [Recs.blendLanes] using this

/-- Witness for c4_backfill_blend at concrete availabilities. -/
theorem c4_backfill_blend_witness :
    Recs.laneQuotas 10 200 =
      (10, min (Recs.GRAPH_LANE_QUOTA + (Recs.OS_LANE_QUOTA - 10)) 200) :=
  c4_backfill_blend.2.1 10 200 (by decide)

/-- dropTrailingWs is Mathlib's rdropWhile. -/
theorem dropTrailingWs_eq_rdropWhile (l : List Char) :
    dropTrailingWs l = List.rdropWhile pyIsSpace l := rfl

/-- Python strip is idempotent (character-list level). -/
theorem pyStripL_idem (l : List Char) :
    pyStripL (pyStripL l) = pyStripL l := by
  unfold pyStripL
  rw [dropTrailingWs_eq_rdropWhile, dropTrailingWs_eq_rdropWhile]
  have h1 : (List.rdropWhile pyIsSpace (l.dropWhile pyIsSpace)).dropWhile
      pyIsSpace = List.rdropWhile pyIsSpace (l.dropWhile pyIsSpace) := by
    rw [List.dropWhile_eq_self_iff]
    intro hl
    obtain ⟨t, ht⟩ :=
      List.rdropWhile_prefix pyIsSpace (l.dropWhile pyIsSpace)
    have hy : 0 < (l.dropWhile pyIsSpace).length := by
      rw [← ht, List.length_append]
      omega
    have hget : (l.dropWhile pyIsSpace).get ⟨0, hy⟩ =
        (List.rdropWhile pyIsSpace (l.dropWhile pyIsSpace)).get ⟨0, hl⟩ :=
      (List.get_of_eq ht.symm ⟨0, hy⟩).trans (List.get_append 0 hl)
    have h0 := List.dropWhile_get_zero_not pyIsSpace l hy
    rw [hget] at h0
    exact h0
  rw [h1, List.rdropWhile_idempotent]

/-- Python strip is idempotent. -/
theorem pyStrip_idem (s : String) : pyStrip (pyStrip s) = pyStrip s :=
  congrArg String.mk (pyStripL_idem s.data)

namespace Recs

/-- Case-insensitive first-occurrence deduplication against an already-seen
set of lowered keys. -/
def dedupCaseInsensitive (seen : List String) : List String → List String
  | [] => []
  | n :: rest =>
      if pyLower n ∈ seen then dedupCaseInsensitive seen rest
      else n :: dedupCaseInsensitive (seen ++ [pyLower n]) rest

/-- Modelled from the spec sentence of claim C7 as frozen: the stripped
seed display names taken in the given order tags, then entities, then
topics (no weight re-ordering, no per-category cap), blanks dropped,
de-duplicated case-insensitively. -/
def specTermsGivenOrder (b : SeedBundle) : List String :=
  dedupCaseInsensitive []
    (((b.tags ++ b.entities ++ b.topics).map
      (fun s => pyStrip s.name)).filter (fun n => !(n == "")))

/-- Modelled from the spec (amended claim C7): the stripped display names
per category in descending-weight order (tags top 20, entities top 15,
topics top 5), concatenated, blanks dropped, de-duplicated
case-insensitively keeping first occurrences. -/
def claimedTermsSorted (b : SeedBundle) : List String :=
  dedupCaseInsensitive []
    ((((sortDescBy (·.weight) b.tags).take MAX_TAG_SEEDS ++
        (sortDescBy (·.weight) b.entities).take MAX_ENTITY_SEEDS ++
        (sortDescBy (·.weight) b.topics).take MAX_TOPIC_SEEDS).map
      (fun s => pyStrip s.name)).filter (fun n => !(n == "")))

end Recs

/-- Processing two seed batches in sequence is processing their
concatenation. -/
theorem addSeedsLoop_append (L1 : List Recs.Seed) :
    ∀ (seen terms : List String) (L2 : List Recs.Seed),
      Recs.addSeedsLoop seen terms (L1 ++ L2) =
        Recs.addSeedsLoop (Recs.addSeedsLoop seen terms L1).1
          (Recs.addSeedsLoop seen terms L1).2 L2 := by
  induction L1 with
  | nil => intro seen terms L2; rfl
  | cons s rest ih =>
      intro seen terms L2
      simp only [List.cons_append, Recs.addSeedsLoop]
      split_ifs with h1 h2
      · exact ih seen terms L2
      · exact ih seen terms L2
      · exact ih _ _ L2

/-- The seen/terms loop of _build_bm25_terms emits exactly the
case-insensitive deduplication of the stripped non-blank names. -/
theorem addSeedsLoop_terms (L : List Recs.Seed) :
    ∀ seen terms : List String,
      (Recs.addSeedsLoop seen terms L).2 =
        terms ++ Recs.dedupCaseInsensitive seen
          ((L.map (fun s => pyStrip s.name)).filter (fun n => !(n == ""))) := by
  induction L with
  | nil =>
      intro seen terms
      simp [Recs.addSeedsLoop, Recs.dedupCaseInsensitive]
  | cons s rest ih =>
      intro seen terms
      simp only [Recs.addSeedsLoop, List.map_cons, List.filter_cons]
      by_cases h1 : pyStrip s.name = ""
      · rw [if_pos h1]
        simp only [h1]
        rw [ih]
        simp
      · rw [if_neg h1]
        have hcond : (!(pyStrip s.name == "")) = true := by
          simp [h1]
        rw [hcond, if_pos rfl]
        by_cases h2 : Recs.pyLower (pyStrip s.name) ∈ seen
        · rw [if_pos h2, ih]
          rw [Recs.dedupCaseInsensitive, if_pos h2]
        · rw [if_neg h2, ih]
          rw [Recs.dedupCaseInsensitive, if_neg h2]
          simp

/-- build_bm25_terms: the three category loops compose into one
case-insensitive deduplication over the sorted, capped categories. -/
theorem build_bm25_terms_eq_claimed (b : Recs.SeedBundle) :
    Recs.build_bm25_terms b = Recs.claimedTermsSorted b := by
  unfold Recs.build_bm25_terms Recs.claimedTermsSorted
  dsimp only
  rw [← addSeedsLoop_append ((Recs.sortDescBy (·.weight) b.tags).take
    Recs.MAX_TAG_SEEDS)]
  rw [← addSeedsLoop_append ((Recs.sortDescBy (·.weight) b.tags).take
      Recs.MAX_TAG_SEEDS ++
    (Recs.sortDescBy (·.weight) b.entities).take Recs.MAX_ENTITY_SEEDS)]
  rw [addSeedsLoop_terms]
  simp

/-- Deduplication only drops elements. -/
theorem dedupCaseInsensitive_subset (names : List String) :
    ∀ seen, ∀ t ∈ Recs.dedupCaseInsensitive seen names, t ∈ names := by
  induction names with
  | nil =>
      intro seen t ht
      simp [Recs.dedupCaseInsensitive] at ht
  | cons n rest ih =>
      intro seen t ht
      rw [Recs.dedupCaseInsensitive] at ht
      split_ifs at ht with h
      · exact List.mem_cons_of_mem n (ih seen t ht)
      · rcases List.mem_cons.mp ht with h2 | h2
        · exact h2 ▸ List.mem_cons_self n rest
        · exact List.mem_cons_of_mem n (ih _ t h2)

/-- Every BM25 term is a stripped non-blank seed name. -/
theorem build_bm25_terms_stripped (b : Recs.SeedBundle) :
    ∀ t ∈ Recs.build_bm25_terms b, pyStrip t = t ∧ t ≠ "" := by
  intro t ht
  rw [build_bm25_terms_eq_claimed] at ht
  unfold Recs.claimedTermsSorted at ht
  have hmem := dedupCaseInsensitive_subset _ [] t ht
  rcases List.mem_filter.mp hmem with ⟨hmap, hne⟩
  rcases List.mem_map.mp hmap with ⟨s, _, hs⟩
  refine ⟨?_, by simpa using hne⟩
  rw [← hs]
  exact pyStrip_idem s.name

/-- The join accumulator never shrinks. -/
theorem intercalate_go_length_ge (s : String) :
    ∀ (as : List String) (acc : String),
      acc.length ≤ (String.intercalate.go acc s as).length := by
  intro as
  induction as with
  | nil => intro acc; exact le_refl _
  | cons x xs ih =>
      intro acc
      calc acc.length ≤ (acc ++ s ++ x).length := by
            rw [String.length_append, String.length_append]
            omega
        _ ≤ _ := ih _

/-- Joining a list headed by a non-empty string is non-empty. -/
theorem intercalate_ne_empty (t : String) (ts : List String) (h : t ≠ "") :
    String.intercalate " " (t :: ts) ≠ "" := by
  intro hcontra
  have h1 : t.length ≤ (String.intercalate " " (t :: ts)).length :=
    intercalate_go_length_ge " " ts t
  rw [hcontra] at h1
  apply h
  cases t with
  | mk data =>
      cases data with
      | nil => rfl
      | cons c cs => simp [String.length] at h1

/-- On clean non-empty terms _execute_bm25_search issues exactly one
request whose query text is the space-join of the terms. -/
theorem execute_terms_clean (search : Recs.Jx → List Recs.Hit)
    (terms excludes : List String)
    (hclean : ∀ t ∈ terms, pyStrip t = t ∧ t ≠ "") (hne : terms ≠ []) :
    Recs.execute_bm25_search search terms excludes =
      search (Recs.bm25Body (String.intercalate " " terms) excludes) := by
  unfold Recs.execute_bm25_search
  rw [if_neg hne]
  have hfilter : terms.filter (fun v => !(pyStrip v == "")) = terms :=
    List.filter_eq_self.mpr fun t ht => by
      simp only [Bool.not_eq_true', beq_eq_false_iff_ne]
      rw [(hclean t ht).1]
      exact (hclean t ht).2
  rw [hfilter]
  have hmap : terms.map pyStrip = terms := by
    have h1 : terms.map pyStrip = terms.map id :=
      List.map_congr_left fun t ht => (hclean t ht).1
    simpa using h1
  rw [hmap]
  cases terms with
  | nil => exact absurd rfl hne
  | cons t ts =>
      rw [if_neg (intercalate_ne_empty t ts (hclean t (by simp)).2)]

/-- C7 counterexample: a bundle whose two tags arrive in ascending weight
order.  _build_bm25_terms re-sorts each category by weight descending, so
the query terms are not the display names in their given order as the
claim states. -/
theorem c7_bm25_terms_counterexample :
    Recs.build_bm25_terms
        ⟨[], [], [], [⟨"a", "a", 0, none⟩, ⟨"b", "b", 1, none⟩], none⟩ =
      ["b", "a"] ∧
    Recs.specTermsGivenOrder
        ⟨[], [], [], [⟨"a", "a", 0, none⟩, ⟨"b", "b", 1, none⟩], none⟩ =
      ["a", "b"] ∧
    (["b", "a"] : List String) ≠ ["a", "b"] := by
  refine ⟨?_, ?_, by decide⟩
  · norm_num [Recs.build_bm25_terms, Recs.addSeedsLoop, Recs.sortDescBy,
      List.insertionSort, List.orderedInsert, Recs.MAX_TAG_SEEDS,
      Recs.MAX_ENTITY_SEEDS, Recs.MAX_TOPIC_SEEDS]
    decide
  · decide

/-- C7 (amended): the BM25 query terms are the stripped seed display names
per category in descending-weight order (tags top 20, then entities top
15, then topics top 5), de-duplicated case-insensitively; when at least
one term exists, a single request is issued whose query text is the
space-join of those terms, and the body carries size 500, a must_not ids
clause exactly when the history ids are non-empty, a filter term
status = "ready", exactly the four should clauses of the code (multi_match
on title^3/description^2 plus nested matches on tags.name boost 2,
entities.name boost 2, topics.name boost 1), and
minimum_should_match = 1. -/
theorem c7_bm25_query_amended :
    (∀ b : Recs.SeedBundle,
      Recs.build_bm25_terms b = Recs.claimedTermsSorted b) ∧
    (∀ (search : Recs.Jx → List Recs.Hit) (b : Recs.SeedBundle)
        (excludes : List String), Recs.build_bm25_terms b ≠ [] →
      Recs.execute_bm25_search search (Recs.build_bm25_terms b) excludes =
        search (Recs.bm25Body
          (String.intercalate " " (Recs.build_bm25_terms b)) excludes)) ∧
    (∀ (qt : String) (excludes : List String),
      (Recs.bm25Body qt excludes).get? "size" =
        some (.num (Recs.OS_BM25_RECALL_K : ℚ)) ∧
      ((((Recs.bm25Body qt excludes).get? "query").bind
          (fun q => q.get? "bool")).bind
        (fun x => x.get? "minimum_should_match")) = some (.num 1) ∧
      ((((Recs.bm25Body qt excludes).get? "query").bind
          (fun q => q.get? "bool")).bind (fun x => x.get? "should")) =
        some (.arr [
          .obj [("multi_match", .obj [
            ("query", .str qt),
            ("fields", .arr [.str "title^3", .str "description^2"]),
            ("type", .str "best_fields")])],
          Recs.nestedClause "tags" "tags.name" qt 2,
          Recs.nestedClause "entities" "entities.name" qt 2,
          Recs.nestedClause "topics" "topics.name" qt 1]) ∧
      ((((Recs.bm25Body qt excludes).get? "query").bind
          (fun q => q.get? "bool")).bind (fun x => x.get? "filter")) =
        some (.arr [.obj [("term", .obj [("status", .str "ready")])]]) ∧
      (excludes = [] →
        ((((Recs.bm25Body qt excludes).get? "query").bind
            (fun q => q.get? "bool")).bind (fun x => x.get? "must_not")) =
          some (.arr [])) ∧
      (excludes ≠ [] →
        ((((Recs.bm25Body qt excludes).get? "query").bind
            (fun q => q.get? "bool")).bind (fun x => x.get? "must_not")) =
          some (.arr [.obj [("ids", .obj [("values",
            .arr (excludes.map .str))])]]))) := by
  refine ⟨build_bm25_terms_eq_claimed, ?_, ?_⟩
  · intro search b excludes hne
    exact execute_terms_clean search _ excludes
      (build_bm25_terms_stripped b) hne
  · intro qt excludes
    refine ⟨rfl, rfl, rfl, rfl, ?_, ?_⟩
    · intro h
      subst h
      rfl
    · intro h
      simp only [Recs.bm25Body, Recs.Jx.get?, if_neg h]
      rfl

/-- Witness for c7_bm25_query_amended on a one-tag bundle. -/
theorem c7_bm25_query_amended_witness :
    Recs.execute_bm25_search (fun _ => [⟨some "v", some 1, none⟩])
        (Recs.build_bm25_terms ⟨[], [], [], [⟨"react", "react", 1, none⟩],
          none⟩) [] =
      [⟨some "v", some 1, none⟩] :=
  (c7_bm25_query_amended.2.1 (fun _ => [⟨some "v", some 1, none⟩])
    ⟨[], [], [], [⟨"react", "react", 1, none⟩], none⟩ [] (by decide)).trans
    rfl

namespace Recs

/-- One row of the user's watch-history query (already joined to ready
videos and recency-ordered by the database). -/
structure HistoryRow where
  video_id : String
  last_watched_at : Option ℕ
  deriving Repr, DecidableEq, Inhabited

/-- One joined (relation, master) row of the per-video topic/entity/tag
queries feeding _collect_seed_scores. -/
structure SeedRow where
  video_id : String
  weight : ℚ
  master_id : String
  canonical_name : String
  name : String
  deriving Repr, DecidableEq, Inhabited

/-- Accumulated entry of _collect_seed_scores (insertion-ordered dict). -/
structure SeedScore where
  id : String
  canonical_name : String
  name : String
  score : ℚ
  deriving Repr, DecidableEq, Inhabited

/-- Embedding of _collect_seed_scores: skip non-positive base weights and
recencies, accumulate base_weight x recency per master id. -/
def collectSeedScoresLoop (recency_by_video : List (String × ℚ))
    (scores : List SeedScore) : List SeedRow → List SeedScore
  | [] => scores
  | row :: rest =>
      if row.weight ≤ 0 then collectSeedScoresLoop recency_by_video scores rest
      else
        let recency :=
          (((recency_by_video.find? (fun kv => kv.1 == row.video_id)).map
            (·.2)).getD 0)
        if recency ≤ 0 then
          collectSeedScoresLoop recency_by_video scores rest
        else
          let seed_weight := row.weight * recency
          let scores2 :=
            if scores.any (fun e => e.id == row.master_id) then
              scores.map (fun e =>
                if e.id == row.master_id then
                  { e with score := e.score + seed_weight }
                else e)
            else
              scores ++ [⟨row.master_id, row.canonical_name, row.name,
                seed_weight⟩]
          collectSeedScoresLoop recency_by_video scores2 rest

/-- Embedding of _normalize_top: rank by score descending, cap, keep the
positive scores, renormalize to sum 1. -/
def normalize_top (raw_scores : List SeedScore) (limit : ℕ) : List Seed :=
  if raw_scores = [] then []
  else
    let ranked := (sortDescBy (·.score) raw_scores).take limit
    let total := ((ranked.filter (fun i => 0 < i.score)).map (·.score)).sum
    if total ≤ 0 then []
    else
      (ranked.filter (fun i => 0 < i.score)).map
        (fun i => ⟨i.canonical_name, i.name, i.score / total, some i.id⟩)

/-- One step of the _compute_user_embedding accumulation: state is
(accumulator, weight_sum, expected_dim). -/
def cueStep (emb : List (String × List ℚ))
    (st : Option (List ℚ) × ℚ × Option ℕ) (entry : HistoryEntry) :
    Option (List ℚ) × ℚ × Option ℕ :=
  let weight := entry.recency_weight
  if weight ≤ 0 then st
  else
    match (emb.find? (fun kv => kv.1 == entry.video_id)).map (·.2) with
    | none => st
    | some vec =>
        if vec = [] then st
        else
          match st.2.2 with
          | none =>
              (some (vec.map (fun v => weight * v)), st.2.1 + weight,
                some vec.length)
          | some dim =>
              if vec.length ≠ dim then st
              else
                match st.1 with
                | none => st
                | some acc =>
                    (some (List.zipWith (fun a v => a + weight * v) acc vec),
                      st.2.1 + weight, some dim)

/-- Embedding of _compute_user_embedding.  The L2 norm's square root is an
oracle (floats are not representable in ℚ). -/
def compute_user_embedding (sqrtq : ℚ → ℚ)
    (history_entries : List HistoryEntry)
    (embedding_by_video : List (String × List ℚ)) : Option (List ℚ) :=
  if history_entries = [] ∨ embedding_by_video = [] then none
  else
    let st := history_entries.foldl (cueStep embedding_by_video)
      (none, 0, none)
    match st.1 with
    | none => none
    | some acc =>
        if acc = [] ∨ st.2.1 ≤ 0 then none
        else
          let avg := acc.map (fun v => v / st.2.1)
          let norm := sqrtq ((avg.map (fun v => v * v)).sum)
          if norm ≤ 0 then none
          else some (avg.map (fun v => v / norm))

/-- Embedding of build_seed_bundle.  The database queries are inputs (the
history rows are already filtered to ready videos, ordered and limited);
_recency_weight (math.pow) and the embedding mget are oracles. -/
def build_seed_bundle (recency : Option ℕ → ℚ) (sqrtq : ℚ → ℚ)
    (fetchEmb : List String → List (String × List ℚ))
    (topic_rows entity_rows tag_rows : List SeedRow)
    (history_rows : List HistoryRow) : SeedBundle :=
  let history_entries := history_rows.map (fun wh =>
    HistoryEntry.mk wh.video_id wh.last_watched_at
      (recency wh.last_watched_at))
  let recency_by_video := history_rows.map (fun wh =>
    (wh.video_id, recency wh.last_watched_at))
  let video_ids := history_rows.map (·.video_id)
  if video_ids = [] then ⟨[], [], [], [], none⟩
  else
    let embedding_by_video := fetchEmb video_ids
    let user_embedding :=
      compute_user_embedding sqrtq history_entries embedding_by_video
    let topic_scores := collectSeedScoresLoop recency_by_video [] topic_rows
    let entity_scores := collectSeedScoresLoop recency_by_video [] entity_rows
    let tag_scores := collectSeedScoresLoop recency_by_video [] tag_rows
    ⟨history_entries,
      normalize_top topic_scores MAX_TOPIC_SEEDS,
      normalize_top entity_scores MAX_ENTITY_SEEDS,
      normalize_top tag_scores MAX_TAG_SEEDS,
      user_embedding⟩

/-- Embedding of get_recommendations: seed bundle, OS lane, graph lane with
OS top-2x-quota exclusion, then the quota backfill blend. -/
def get_recommendations (has_client has_driver : Bool)
    (search : Jx → List Hit) (walk : List String → List (String × ℕ))
    (fetch : String → Option Doc) (cos : List ℚ → List ℚ → ℚ)
    (recency : Option ℕ → ℚ) (sqrtq : ℚ → ℚ)
    (fetchEmb : List String → List (String × List ℚ))
    (topic_rows entity_rows tag_rows : List SeedRow)
    (history_rows : List HistoryRow) (target_count : ℕ) :
    RecommendationResult :=
  let seed_bundle := build_seed_bundle recency sqrtq fetchEmb topic_rows
    entity_rows tag_rows history_rows
  let os_result := run_opensearch_lane has_client search cos seed_bundle
  let os_shortlist := os_result.shortlist
  let os_top_ids := (os_shortlist.take (2 * OS_LANE_QUOTA)).map (·.video_id)
  let graph_result := run_graph_lane has_driver walk fetch cos seed_bundle
    os_top_ids
  blendLanes os_shortlist graph_result.shortlist target_count

end Recs

/-- The OS lane on the empty seed bundle returns the empty result without
issuing any search request. -/
theorem os_lane_empty_bundle (has_client : Bool)
    (search : Recs.Jx → List Recs.Hit) (cos : List ℚ → List ℚ → ℚ) :
    Recs.run_opensearch_lane has_client search cos ⟨[], [], [], [], none⟩ =
      ⟨[], [], []⟩ := by
  cases has_client <;> rfl

/-- The graph lane on the empty seed bundle returns the empty result
without running any walk. -/
theorem graph_lane_empty_bundle (has_driver : Bool)
    (walk : List String → List (String × ℕ))
    (fetch : String → Option Recs.Doc) (cos : List ℚ → List ℚ → ℚ)
    (os_top_ids : List String) :
    Recs.run_graph_lane has_driver walk fetch cos ⟨[], [], [], [], none⟩
      os_top_ids = ⟨[], []⟩ := by
  cases has_driver <;> rfl

/-- Blending two empty shortlists yields the empty result. -/
theorem blend_empty (target_count : ℕ) :
    Recs.blendLanes [] [] target_count = ⟨[], [], 0, 0⟩ := by
  simp [Recs.blendLanes, Recs.laneQuotas, Recs.max_marginal_relevance]

/-- C9: with an empty ready-joined watch history, build_seed_bundle
returns the bundle with empty history, topics, entities and tags and no
user embedding, and get_recommendations returns no video ids and zero
items from either lane. -/
theorem c9_empty_history_empty_result :
    (∀ (recency : Option ℕ → ℚ) (sqrtq : ℚ → ℚ)
        (fetchEmb : List String → List (String × List ℚ))
        (topic_rows entity_rows tag_rows : List Recs.SeedRow),
      Recs.build_seed_bundle recency sqrtq fetchEmb topic_rows entity_rows
        tag_rows [] = ⟨[], [], [], [], none⟩) ∧
    (∀ (has_client has_driver : Bool) (search : Recs.Jx → List Recs.Hit)
        (walk : List String → List (String × ℕ))
        (fetch : String → Option Recs.Doc) (cos : List ℚ → List ℚ → ℚ)
        (recency : Option ℕ → ℚ) (sqrtq : ℚ → ℚ)
        (fetchEmb : List String → List (String × List ℚ))
        (topic_rows entity_rows tag_rows : List Recs.SeedRow)
        (target_count : ℕ),
      Recs.get_recommendations has_client has_driver search walk fetch cos
        recency sqrtq fetchEmb topic_rows entity_rows tag_rows []
        target_count = ⟨[], [], 0, 0⟩) := by
  constructor
  · intro recency sqrtq fetchEmb topic_rows entity_rows tag_rows
    rfl
  · intro has_client has_driver search walk fetch cos recency sqrtq fetchEmb
      topic_rows entity_rows tag_rows target_count
    have hb : Recs.build_seed_bundle recency sqrtq fetchEmb topic_rows
        entity_rows tag_rows [] = ⟨[], [], [], [], none⟩ := rfl
    simp only [Recs.get_recommendations]
    rw [hb, os_lane_empty_bundle has_client search cos]
    rw [graph_lane_empty_bundle has_driver walk fetch cos _]
    exact blend_empty target_count

/-- Witness for c9_empty_history_empty_result at concrete oracles. -/
theorem c9_empty_history_empty_result_witness :
    Recs.get_recommendations true true (fun _ => []) (fun _ => [])
        (fun _ => none) (fun _ _ => 0) (fun _ => 1) (fun q => q)
        (fun _ => []) [] [] [] [] 100 = ⟨[], [], 0, 0⟩ :=
  c9_empty_history_empty_result.2 true true (fun _ => []) (fun _ => [])
    (fun _ => none) (fun _ _ => 0) (fun _ => 1) (fun q => q) (fun _ => [])
    [] [] [] 100

/-- Python `a or b` on an optional float: None and 0.0 are falsy. -/
def pyOrQ (a? : Option ℚ) (b : ℚ) : ℚ :=
  match a? with
  | none => b
  | some a => if a = 0 then b else a

namespace Worker

/-- One transcript segment (end_ models the "end" key). -/
structure Segment where
  start : ℚ
  end_ : ℚ
  text : String
  deriving Repr, DecidableEq, Inhabited

/-- One transcript chunk emitted for indexing. -/
structure Chunk where
  start_seconds : ℚ
  end_seconds : ℚ
  text : String
  lang : String
  deriving Repr, DecidableEq, Inhabited

/-- Loop of apps/api/worker.py _chunk_segments, with the accumulator state
(cur_text, cur_start, cur_end) explicit; the empty-input case performs the
final flush (note the Python `or` falsy traps on cur_end/cur_start). -/
def chunkGo (minLen maxLen : ℕ) (lang : String) (curText : String)
    (curStart curEnd : Option ℚ) : List Segment → List Chunk
  | [] =>
      if curText ≠ "" then
        [⟨pyOrQ curStart 0, pyOrQ curEnd (pyOrQ curStart 0), curText, lang⟩]
      else []
  | seg :: rest =>
      let text := pyStrip seg.text
      if text = "" then chunkGo minLen maxLen lang curText curStart curEnd rest
      else
        let s := seg.start
        let e := seg.end_
        let cs := match curStart with
          | none => s
          | some c => c
        let candidate :=
          if curText ≠ "" then pyStrip (curText ++ " " ++ text) else text
        if candidate.length ≤ maxLen then
          if minLen ≤ candidate.length then
            ⟨cs, e, candidate, lang⟩ ::
              chunkGo minLen maxLen lang "" none none rest
          else chunkGo minLen maxLen lang candidate (some cs) (some e) rest
        else
          if curText ≠ "" then
            ⟨cs, pyOrQ curEnd s, curText, lang⟩ ::
              chunkGo minLen maxLen lang text (some s) (some e) rest
          else chunkGo minLen maxLen lang text (some s) (some e) rest

/-- Embedding of _chunk_segments (defaults min_len=80, max_len=200). -/
def chunk_segments (minLen maxLen : ℕ) (lang : String)
    (segments : List Segment) : List Chunk :=
  chunkGo minLen maxLen lang "" none none segments

/-- The non-blank segments with their texts stripped: the material the
chunker actually consumes. -/
def cleanSegs (segments : List Segment) : List Segment :=
  (segments.filter (fun seg => !(pyStrip seg.text == ""))).map
    (fun seg => ⟨seg.start, seg.end_, pyStrip seg.text⟩)

end Worker

/-- Whitespace-splitting accumulator: words of a character list. -/
def wordsAux (cur : List Char) : List Char → List (List Char)
  | [] => if cur = [] then [] else [cur.reverse]
  | c :: cs =>
      if pyIsSpace c then
        if cur = [] then wordsAux [] cs else cur.reverse :: wordsAux [] cs
      else wordsAux (c :: cur) cs

/-- Whitespace-normalization of a string: its list of words. -/
def pyWords (s : String) : List (List Char) :=
  wordsAux [] s.data

/-- Splitting distributes over a space separator. -/
theorem wordsAux_append_space (b : List Char) :
    ∀ (a : List Char) (cur : List Char),
      wordsAux cur (a ++ ' ' :: b) = wordsAux cur a ++ wordsAux [] b := by
  intro a
  induction a with
  | nil =>
      intro cur
      by_cases h : cur = []
      · simp [wordsAux, h, pyIsSpace]
      · simp [wordsAux, h, pyIsSpace]
  | cons c a ih =>
      intro cur
      by_cases hsp : pyIsSpace c
      · by_cases h : cur = []
        · simp [wordsAux, hsp, h, ih]
        · simp [wordsAux, hsp, h, ih]
      · simp [wordsAux, hsp, ih]

/-- Words of an all-space list from any accumulator. -/
theorem wordsAux_all_space (t : List Char) (ht : ∀ c ∈ t, pyIsSpace c) :
    ∀ cur, wordsAux cur t = if cur = [] then [] else [cur.reverse] := by
  induction t with
  | nil => intro cur; rfl
  | cons c t ih =>
      intro cur
      have hc : pyIsSpace c := ht c (by simp)
      have ih2 := ih (fun x hx => ht x (List.mem_cons_of_mem c hx))
      by_cases h : cur = []
      · simp [wordsAux, hc, h, ih2]
      · simp [wordsAux, hc, h, ih2]

/-- An all-space suffix contributes no words. -/
theorem wordsAux_append_all_space (t : List Char)
    (ht : ∀ c ∈ t, pyIsSpace c) :
    ∀ (l : List Char) (cur : List Char),
      wordsAux cur (l ++ t) = wordsAux cur l := by
  intro l
  induction l with
  | nil =>
      intro cur
      rw [List.nil_append, wordsAux_all_space t ht cur]
      rfl
  | cons c l ih =>
      intro cur
      by_cases hsp : pyIsSpace c
      · by_cases h : cur = []
        · simp [wordsAux, hsp, h, ih]
        · simp [wordsAux, hsp, h, ih]
      · simp [wordsAux, hsp, ih]

/-- A leading all-space run contributes no words. -/
theorem wordsAux_dropWhile (l : List Char) :
    wordsAux [] (l.dropWhile pyIsSpace) = wordsAux [] l := by
  induction l with
  | nil => rfl
  | cons c cs ih =>
      by_cases hsp : pyIsSpace c
      · rw [List.dropWhile_cons_of_pos hsp, ih]
        simp [wordsAux, hsp]
      · rw [List.dropWhile_cons_of_neg hsp]

/-- rdropWhile and rtakeWhile partition the list. -/
theorem rdropWhile_append_rtakeWhile {α : Type} (p : α → Bool) (l : List α) :
    List.rdropWhile p l ++ List.rtakeWhile p l = l := by
  rw [List.rdropWhile, List.rtakeWhile, ← List.reverse_append,
    List.takeWhile_append_dropWhile, List.reverse_reverse]

/-- Stripping does not change the words. -/
theorem pyWords_strip (s : String) : pyWords (pyStrip s) = pyWords s := by
  show wordsAux [] (pyStripL s.data) = wordsAux [] s.data
  unfold pyStripL
  rw [dropTrailingWs_eq_rdropWhile]
  have h1 : wordsAux [] (List.rdropWhile pyIsSpace
      (s.data.dropWhile pyIsSpace)) =
      wordsAux [] (s.data.dropWhile pyIsSpace) := by
    conv_rhs => rw [← rdropWhile_append_rtakeWhile pyIsSpace
      (s.data.dropWhile pyIsSpace)]
    rw [wordsAux_append_all_space _ (fun c hc =>
      List.mem_rtakeWhile_imp hc)]
  rw [h1, wordsAux_dropWhile]

/-- A string that strips to nothing has no words. -/
theorem pyWords_of_strip_empty (s : String) (h : pyStrip s = "") :
    pyWords s = [] := by
  rw [← pyWords_strip, h]
  rfl

/-- A strip-fixed character list is fixed by dropWhile and rdropWhile
separately. -/
theorem strip_fixed_parts (l : List Char) (h : pyStripL l = l) :
    l.dropWhile pyIsSpace = l ∧ List.rdropWhile pyIsSpace l = l := by
  unfold pyStripL at h
  rw [dropTrailingWs_eq_rdropWhile] at h
  have hsuf : l.dropWhile pyIsSpace <:+ l := List.dropWhile_suffix pyIsSpace
  have hpre : List.rdropWhile pyIsSpace (l.dropWhile pyIsSpace) <+:
      l.dropWhile pyIsSpace := List.rdropWhile_prefix pyIsSpace _
  have hlen : (l.dropWhile pyIsSpace).length = l.length := by
    have h1 := hsuf.length_le
    have h2 := hpre.length_le
    rw [h] at h2
    omega
  have hd : l.dropWhile pyIsSpace = l := hsuf.eq_of_length hlen
  rw [hd] at h
  exact ⟨hd, h⟩

/-- Joining two stripped non-empty character lists with one space is
strip-fixed. -/
theorem pyStripL_join (la lb : List Char) (ha : pyStripL la = la)
    (ha2 : la ≠ []) (hb : pyStripL lb = lb) (hb2 : lb ≠ []) :
    pyStripL (la ++ ' ' :: lb) = la ++ ' ' :: lb := by
  obtain ⟨hda, _⟩ := strip_fixed_parts la ha
  obtain ⟨_, hrb⟩ := strip_fixed_parts lb hb
  unfold pyStripL
  rw [dropTrailingWs_eq_rdropWhile]
  have hdrop : (la ++ ' ' :: lb).dropWhile pyIsSpace = la ++ ' ' :: lb := by
    cases la with
    | nil => exact absurd rfl ha2
    | cons c cs =>
        have hc := List.dropWhile_eq_self_iff.mp hda (by simp)
        simp only [List.get] at hc
        rw [List.cons_append, List.dropWhile_cons_of_neg hc]
  have hlast : List.rdropWhile pyIsSpace (la ++ ' ' :: lb) =
      la ++ ' ' :: lb := by
    rw [List.rdropWhile_eq_self_iff]
    intro hl
    have hlbne : (' ' :: lb) ≠ [] := by simp
    have hglast : (la ++ ' ' :: lb).getLast hl =
        (' ' :: lb).getLast hlbne := List.getLast_append' la (' ' :: lb) hlbne
    rw [hglast, List.getLast_cons hb2]
    exact List.rdropWhile_eq_self_iff.mp hrb hb2
  rw [hdrop, hlast]

/-- String-level: joining two stripped non-empty strings with a single
space needs no further stripping. -/
theorem stripNoopJoin (a b : String) (ha : pyStrip a = a) (ha2 : a ≠ "")
    (hb : pyStrip b = b) (hb2 : b ≠ "") :
    pyStrip (a ++ " " ++ b) = a ++ " " ++ b := by
  have hda : (a ++ " " ++ b).data = a.data ++ ' ' :: b.data := by
    rw [String.data_append, String.data_append]
    show a.data ++ [' '] ++ b.data = _
    rw [List.append_assoc, List.singleton_append]
  have hla : pyStripL a.data = a.data := congrArg String.data ha
  have hlb : pyStripL b.data = b.data := congrArg String.data hb
  have hla2 : a.data ≠ [] := by
    intro hc
    apply ha2
    cases a with | mk d => simp only at hc; rw [hc]
  have hlb2 : b.data ≠ [] := by
    intro hc
    apply hb2
    cases b with | mk d => simp only at hc; rw [hc]
  show String.mk (pyStripL (a ++ " " ++ b).data) = a ++ " " ++ b
  rw [hda, pyStripL_join a.data b.data hla hla2 hlb hlb2, ← hda]

/-- `x or 0.0` is the identity on a present float (0.0 is its own
fallback). -/
theorem pyOrQ_some_zero (x : ℚ) : pyOrQ (some x) 0 = x := by
  show (if x = 0 then (0 : ℚ) else x) = x
  split_ifs with h
  · exact h.symm
  · rfl

/-- `x or b` keeps a present non-zero float. -/
theorem pyOrQ_some_ne (x b : ℚ) (h : x ≠ 0) : pyOrQ (some x) b = x := by
  show (if x = 0 then b else x) = x
  rw [if_neg h]

namespace Worker

/-- Single-space join of the texts a block of cleaned segments
contributes. -/
def joinTexts (l : List Segment) : String :=
  String.intercalate " " (l.map (·.text))

/-- The chunk the loop emits for a block of contributing segments: start of
the first, end of the last, the joined text. -/
def renderBlock (lang : String) (b : List Segment) : Chunk :=
  ⟨(b.headD default).start, (b.getLastD default).end_, joinTexts b, lang⟩

end Worker

/-- Appending one more string to a non-trivial join accumulator. -/
theorem intercalate_go_concat (s t : String) :
    ∀ (l : List String) (acc : String),
      String.intercalate.go acc s (l ++ [t]) =
        String.intercalate.go acc s l ++ s ++ t := by
  intro l
  induction l with
  | nil => intro acc; rfl
  | cons x xs ih => intro acc; exact ih (acc ++ s ++ x)

/-- Joining one more string onto a non-empty list. -/
theorem intercalate_concat (s t : String) (l : List String) (h : l ≠ []) :
    String.intercalate s (l ++ [t]) = String.intercalate s l ++ s ++ t := by
  cases l with
  | nil => exact absurd rfl h
  | cons a as =>
      show String.intercalate.go a s (as ++ [t]) = _
      rw [intercalate_go_concat]
      rfl

/-- An empty block contributes no text. -/
theorem joinTexts_nil : Worker.joinTexts [] = "" := rfl

/-- A one-segment block contributes its (stripped) text. -/
theorem joinTexts_singleton (x : Worker.Segment) :
    Worker.joinTexts [x] = x.text := rfl

/-- Extending a non-empty block appends " " and the new text. -/
theorem joinTexts_concat (l : List Worker.Segment) (x : Worker.Segment)
    (h : l ≠ []) :
    Worker.joinTexts (l ++ [x]) = Worker.joinTexts l ++ " " ++ x.text := by
  unfold Worker.joinTexts
  rw [List.map_append, List.map_singleton,
    intercalate_concat _ _ _ (fun hc => h (List.map_eq_nil.mp hc))]

/-- A non-empty block of non-blank texts contributes non-empty text. -/
theorem joinTexts_ne_empty (l : List Worker.Segment) (hl : l ≠ [])
    (h : ∀ x ∈ l, x.text ≠ "") : Worker.joinTexts l ≠ "" := by
  cases l with
  | nil => exact absurd rfl hl
  | cons a as =>
      unfold Worker.joinTexts
      rw [List.map_cons]
      exact intercalate_ne_empty a.text (as.map (·.text)) (h a (by simp))

/-- cleanSegs drops a blank segment. -/
theorem cleanSegs_cons_blank (seg : Worker.Segment)
    (h : pyStrip seg.text = "") (rest : List Worker.Segment) :
    Worker.cleanSegs (seg :: rest) = Worker.cleanSegs rest := by
  unfold Worker.cleanSegs
  rw [List.filter_cons]
  simp [h]

/-- cleanSegs keeps a non-blank segment with its text stripped. -/
theorem cleanSegs_cons (seg : Worker.Segment)
    (h : ¬ pyStrip seg.text = "") (rest : List Worker.Segment) :
    Worker.cleanSegs (seg :: rest) =
      (⟨seg.start, seg.end_, pyStrip seg.text⟩ : Worker.Segment) ::
        Worker.cleanSegs rest := by
  unfold Worker.cleanSegs
  rw [List.filter_cons]
  simp [h]

/-- A non-empty block renders with the start of its first segment and the
end of its last. -/
theorem renderBlock_cons (lang : String) (c : Worker.Segment)
    (cs : List Worker.Segment) :
    Worker.renderBlock lang (c :: cs) =
      ⟨c.start, ((c :: cs).getLast (List.cons_ne_nil c cs)).end_,
        Worker.joinTexts (c :: cs), lang⟩ := by
  unfold Worker.renderBlock
  rw [List.headD_cons, List.getLastD_eq_getLast?,
    List.getLast?_eq_getLast (c :: cs) (List.cons_ne_nil c cs)]
  rfl

/-- The chunking loop partitions the cleaned segments into consecutive
non-empty blocks and renders each block's first start, last end and joined
text (provided every segment end is non-zero, so that the Python `or`
fallbacks never fire). -/
theorem chunkGo_partition (minLen maxLen : ℕ) (lang : String) :
    ∀ (rest cur : List Worker.Segment),
      pyStrip (Worker.joinTexts cur) = Worker.joinTexts cur →
      (∀ x ∈ cur, x.text ≠ "" ∧ x.end_ ≠ 0) →
      (∀ s ∈ rest, s.end_ ≠ 0) →
      ∃ blocks : List (List Worker.Segment),
        blocks.flatten = cur ++ Worker.cleanSegs rest ∧
        (∀ b ∈ blocks, b ≠ []) ∧
        Worker.chunkGo minLen maxLen lang (Worker.joinTexts cur)
            (cur.head?.map (fun x => x.start))
            (cur.getLast?.map (fun x => x.end_)) rest =
          blocks.map (Worker.renderBlock lang) := by
  intro rest
  induction rest with
  | nil =>
      intro cur hfix hcur _
      cases cur with
      | nil =>
          refine ⟨[], by simp [Worker.cleanSegs], by simp, ?_⟩
          rfl
      | cons c ct =>
          refine ⟨[c :: ct], by simp [Worker.cleanSegs], by simp, ?_⟩
          have hne : Worker.joinTexts (c :: ct) ≠ "" :=
            joinTexts_ne_empty _ (List.cons_ne_nil c ct)
              (fun x hx => (hcur x hx).1)
          rw [Worker.chunkGo, if_pos hne]
          have hlast := List.getLast?_eq_getLast (c :: ct)
            (List.cons_ne_nil c ct)
          rw [List.map_singleton, renderBlock_cons, List.head?_cons, hlast]
          simp only [Option.map_some']
          rw [pyOrQ_some_zero, pyOrQ_some_ne]
          exact (hcur _ (List.getLast_mem (List.cons_ne_nil c ct))).2
  | cons seg rest ih =>
      intro cur hfix hcur hrest
      have hrest' : ∀ s ∈ rest, s.end_ ≠ 0 :=
        fun s hs => hrest s (List.mem_cons_of_mem seg hs)
      by_cases hblank : pyStrip seg.text = ""
      · obtain ⟨blocks, h1, h2, h3⟩ := ih cur hfix hcur hrest'
        refine ⟨blocks, ?_, h2, ?_⟩
        · rw [cleanSegs_cons_blank seg hblank]
          exact h1
        · rw [Worker.chunkGo]
          dsimp only
          rw [if_pos hblank]
          exact h3
      · have hsegend : seg.end_ ≠ 0 := hrest seg (List.mem_cons_self seg rest)
        have htfix : pyStrip (pyStrip seg.text) = pyStrip seg.text :=
          pyStrip_idem seg.text
        cases cur with
        | nil =>
            rw [cleanSegs_cons seg hblank]
            have hred : Worker.chunkGo minLen maxLen lang
                (Worker.joinTexts [])
                (([] : List Worker.Segment).head?.map (fun x => x.start))
                (([] : List Worker.Segment).getLast?.map (fun x => x.end_))
                (seg :: rest) =
              if (pyStrip seg.text).length ≤ maxLen then
                if minLen ≤ (pyStrip seg.text).length then
                  (⟨seg.start, seg.end_, pyStrip seg.text, lang⟩ :
                      Worker.Chunk) ::
                    Worker.chunkGo minLen maxLen lang "" none none rest
                else Worker.chunkGo minLen maxLen lang (pyStrip seg.text)
                  (some seg.start) (some seg.end_) rest
              else Worker.chunkGo minLen maxLen lang (pyStrip seg.text)
                (some seg.start) (some seg.end_) rest := by
              simp only [List.head?_nil, List.getLast?_nil, Option.map_none']
              rw [Worker.chunkGo]
              dsimp only
              rw [if_neg hblank]
              have hni : ¬ (Worker.joinTexts ([] : List Worker.Segment) ≠
                  "") := fun h => h rfl
              rw [if_neg hni, if_neg hni]
            rw [hred]
            have hseg' : ∀ x ∈ [(⟨seg.start, seg.end_, pyStrip seg.text⟩ :
                Worker.Segment)], x.text ≠ "" ∧ x.end_ ≠ 0 := by
              intro x hx
              rw [List.mem_singleton] at hx
              rw [hx]
              exact ⟨hblank, hsegend⟩
            by_cases hlen1 : (pyStrip seg.text).length ≤ maxLen
            · rw [if_pos hlen1]
              by_cases hlen2 : minLen ≤ (pyStrip seg.text).length
              · rw [if_pos hlen2]
                obtain ⟨blocks, h1, h2, h3⟩ := ih [] rfl (by simp) hrest'
                refine ⟨[⟨seg.start, seg.end_, pyStrip seg.text⟩] :: blocks,
                  ?_, ?_, ?_⟩
                · rw [List.flatten_cons, h1]
                  simp
                · intro b hb
                  rcases List.mem_cons.mp hb with h | h
                  · rw [h]; exact List.cons_ne_nil _ _
                  · exact h2 b h
                · rw [List.map_cons, ← h3, renderBlock_cons]
                  rfl
              · rw [if_neg hlen2]
                obtain ⟨blocks, h1, h2, h3⟩ :=
                  ih [⟨seg.start, seg.end_, pyStrip seg.text⟩]
                    htfix hseg' hrest'
                exact ⟨blocks, by simpa using h1, h2, by simpa using h3⟩
            · rw [if_neg hlen1]
              obtain ⟨blocks, h1, h2, h3⟩ :=
                ih [⟨seg.start, seg.end_, pyStrip seg.text⟩]
                  htfix hseg' hrest'
              exact ⟨blocks, by simpa using h1, h2, by simpa using h3⟩
        | cons c ct =>
            rw [cleanSegs_cons seg hblank]
            have hne : Worker.joinTexts (c :: ct) ≠ "" :=
              joinTexts_ne_empty _ (List.cons_ne_nil c ct)
                (fun x hx => (hcur x hx).1)
            have hcand : pyStrip (Worker.joinTexts (c :: ct) ++ " " ++
                pyStrip seg.text) =
                Worker.joinTexts ((c :: ct) ++
                  [⟨seg.start, seg.end_, pyStrip seg.text⟩]) := by
              rw [stripNoopJoin _ _ hfix hne htfix hblank,
                joinTexts_concat _ _ (List.cons_ne_nil c ct)]
            have hlast := List.getLast?_eq_getLast (c :: ct)
              (List.cons_ne_nil c ct)
            have hred : Worker.chunkGo minLen maxLen lang
                (Worker.joinTexts (c :: ct)) ((c :: ct).head?.map (·.start))
                ((c :: ct).getLast?.map (·.end_)) (seg :: rest) =
              if (Worker.joinTexts ((c :: ct) ++
                  [⟨seg.start, seg.end_, pyStrip seg.text⟩])).length ≤
                  maxLen then
                if minLen ≤ (Worker.joinTexts ((c :: ct) ++
                    [⟨seg.start, seg.end_, pyStrip seg.text⟩])).length then
                  (⟨c.start, seg.end_, Worker.joinTexts ((c :: ct) ++
                      [⟨seg.start, seg.end_, pyStrip seg.text⟩]), lang⟩ :
                      Worker.Chunk) ::
                    Worker.chunkGo minLen maxLen lang "" none none rest
                else Worker.chunkGo minLen maxLen lang
                  (Worker.joinTexts ((c :: ct) ++
                    [⟨seg.start, seg.end_, pyStrip seg.text⟩]))
                  (some c.start) (some seg.end_) rest
              else
                (⟨c.start, ((c :: ct).getLast (List.cons_ne_nil c ct)).end_,
                    Worker.joinTexts (c :: ct), lang⟩ : Worker.Chunk) ::
                  Worker.chunkGo minLen maxLen lang (pyStrip seg.text)
                    (some seg.start) (some seg.end_) rest := by
              rw [Worker.chunkGo]
              dsimp only
              rw [if_neg hblank, List.head?_cons, hlast]
              simp only [Option.map_some']
              rw [if_pos hne, hcand, if_pos hne]
              rw [pyOrQ_some_ne _ _
                ((hcur _ (List.getLast_mem (List.cons_ne_nil c ct))).2)]
            rw [hred]
            have hcurext : ∀ x ∈ (c :: ct) ++
                [(⟨seg.start, seg.end_, pyStrip seg.text⟩ : Worker.Segment)],
                x.text ≠ "" ∧ x.end_ ≠ 0 := by
              intro x hx
              rcases List.mem_append.mp hx with h | h
              · exact hcur x h
              · rw [List.mem_singleton] at h
                rw [h]
                exact ⟨hblank, hsegend⟩
            have hfixext : pyStrip (Worker.joinTexts ((c :: ct) ++
                [⟨seg.start, seg.end_, pyStrip seg.text⟩])) =
                Worker.joinTexts ((c :: ct) ++
                  [⟨seg.start, seg.end_, pyStrip seg.text⟩]) := by
              rw [← hcand]
              exact pyStrip_idem _
            by_cases hlen1 : (Worker.joinTexts ((c :: ct) ++
                [⟨seg.start, seg.end_, pyStrip seg.text⟩])).length ≤ maxLen
            · rw [if_pos hlen1]
              by_cases hlen2 : minLen ≤ (Worker.joinTexts ((c :: ct) ++
                  [⟨seg.start, seg.end_, pyStrip seg.text⟩])).length
              · rw [if_pos hlen2]
                obtain ⟨blocks, h1, h2, h3⟩ := ih [] rfl (by simp) hrest'
                refine ⟨((c :: ct) ++
                    [⟨seg.start, seg.end_, pyStrip seg.text⟩]) :: blocks,
                  ?_, ?_, ?_⟩
                · rw [List.flatten_cons, h1]
                  simp
                · intro b hb
                  rcases List.mem_cons.mp hb with h | h
                  · rw [h]; exact List.append_ne_nil_of_left_ne_nil
                      (List.cons_ne_nil c ct) _
                  · exact h2 b h
                · rw [List.map_cons, ← h3, List.cons_append,
                    renderBlock_cons]
                  have hsome : (c :: (ct ++ [(⟨seg.start, seg.end_,
                      pyStrip seg.text⟩ : Worker.Segment)])).getLast? =
                      some ⟨seg.start, seg.end_, pyStrip seg.text⟩ := by
                    rw [← List.cons_append, List.getLast?_concat]
                  have hgl := List.getLast?_eq_getLast
                    (c :: (ct ++ [(⟨seg.start, seg.end_,
                      pyStrip seg.text⟩ : Worker.Segment)]))
                    (List.cons_ne_nil c _)
                  rw [hgl] at hsome
                  rw [Option.some_inj.mp hsome]
                  rfl
              · rw [if_neg hlen2]
                obtain ⟨blocks, h1, h2, h3⟩ :=
                  ih ((c :: ct) ++ [⟨seg.start, seg.end_, pyStrip seg.text⟩])
                    hfixext hcurext hrest'
                refine ⟨blocks, ?_, h2, ?_⟩
                · rw [h1]
                  simp
                · rw [← h3, List.cons_append, List.head?_cons,
                    ← List.cons_append, List.getLast?_concat]
                  rfl
            · rw [if_neg hlen1]
              have hseg' : ∀ x ∈ [(⟨seg.start, seg.end_, pyStrip seg.text⟩ :
                  Worker.Segment)], x.text ≠ "" ∧ x.end_ ≠ 0 := by
                intro x hx
                rw [List.mem_singleton] at hx
                rw [hx]
                exact ⟨hblank, hsegend⟩
              obtain ⟨blocks, h1, h2, h3⟩ :=
                ih [⟨seg.start, seg.end_, pyStrip seg.text⟩]
                  htfix hseg' hrest'
              refine ⟨(c :: ct) :: blocks, ?_, ?_, ?_⟩
              · rw [List.flatten_cons, h1]
                simp
              · intro b hb
                rcases List.mem_cons.mp hb with h | h
                · rw [h]; exact List.cons_ne_nil c ct
                · exact h2 b h
              · rw [List.map_cons, ← h3, renderBlock_cons]
                rfl

/-- Length cap: when every stripped segment text fits in maxLen, every
emitted chunk text fits in maxLen (an oversized single segment is the only
way out of the cap). -/
theorem chunkGo_len (minLen maxLen : ℕ) (lang : String) :
    ∀ (rest : List Worker.Segment) (curText : String)
      (curStart curEnd : Option ℚ),
      curText.length ≤ maxLen →
      (∀ s ∈ rest, (pyStrip s.text).length ≤ maxLen) →
      ∀ ch ∈ Worker.chunkGo minLen maxLen lang curText curStart curEnd rest,
        ch.text.length ≤ maxLen := by
  intro rest
  induction rest with
  | nil =>
      intro curText cs ce hcur _ ch hch
      rw [Worker.chunkGo] at hch
      split_ifs at hch with h
      · rw [List.mem_singleton] at hch
        rw [hch]
        exact hcur
      · simp at hch
  | cons seg rest ih =>
      intro curText cs ce hcur hres ch hch
      have hres' : ∀ s ∈ rest, (pyStrip s.text).length ≤ maxLen :=
        fun s hs => hres s (List.mem_cons_of_mem seg hs)
      have hseg : (pyStrip seg.text).length ≤ maxLen :=
        hres seg (List.mem_cons_self seg rest)
      rw [Worker.chunkGo] at hch
      dsimp only at hch
      by_cases h1 : pyStrip seg.text = ""
      · rw [if_pos h1] at hch
        exact ih curText cs ce hcur hres' ch hch
      · rw [if_neg h1] at hch
        by_cases h4 : curText ≠ ""
        · rw [if_pos h4, if_pos h4] at hch
          split_ifs at hch with h2 h3
          · rcases List.mem_cons.mp hch with h | h
            · rw [h]
              exact h2
            · exact ih "" none none (Nat.zero_le _) hres' ch h
          · exact ih _ _ _ h2 hres' ch hch
          · rcases List.mem_cons.mp hch with h | h
            · rw [h]
              exact hcur
            · exact ih _ _ _ hseg hres' ch h
        · have hni : ¬ (curText ≠ "") := h4
          rw [if_neg hni, if_neg hni] at hch
          by_cases h2 : (pyStrip seg.text).length ≤ maxLen
          · rw [if_pos h2] at hch
            by_cases h3 : minLen ≤ (pyStrip seg.text).length
            · rw [if_pos h3] at hch
              rcases List.mem_cons.mp hch with h | h
              · rw [h]
                exact h2
              · exact ih "" none none (Nat.zero_le _) hres' ch h
            · rw [if_neg h3] at hch
              exact ih _ _ _ h2 hres' ch hch
          · rw [if_neg h2] at hch
            exact ih _ _ _ hseg hres' ch hch

/-- The empty string has no words. -/
theorem pyWords_empty : pyWords "" = [] := rfl

/-- Words of a single-space join are the words of the parts. -/
theorem pyWords_join (a b : String) :
    pyWords (a ++ " " ++ b) = pyWords a ++ pyWords b := by
  have hda : (a ++ " " ++ b).data = a.data ++ ' ' :: b.data := by
    rw [String.data_append, String.data_append]
    show a.data ++ [' '] ++ b.data = _
    rw [List.append_assoc, List.singleton_append]
  show wordsAux [] (a ++ " " ++ b).data = _
  rw [hda]
  exact wordsAux_append_space b.data a.data []

/-- The chunking loop preserves the word stream: the words of the emitted
chunk texts are the pending words followed by the words of the remaining
segment texts. -/
theorem chunkGo_words (minLen maxLen : ℕ) (lang : String) :
    ∀ (rest : List Worker.Segment) (curText : String)
      (cs ce : Option ℚ),
      ((Worker.chunkGo minLen maxLen lang curText cs ce rest).map
          (fun ch => pyWords ch.text)).flatten =
        pyWords curText ++
          (rest.map (fun s => pyWords s.text)).flatten := by
  intro rest
  induction rest with
  | nil =>
      intro curText cs ce
      rw [Worker.chunkGo]
      split_ifs with h
      · simp
      · rw [not_not] at h
        rw [h]
        simp [pyWords_empty]
  | cons seg rest ih =>
      intro curText cs ce
      rw [Worker.chunkGo]
      dsimp only
      by_cases h1 : pyStrip seg.text = ""
      · rw [if_pos h1, ih]
        have hw : pyWords seg.text = [] := pyWords_of_strip_empty seg.text h1
        simp [hw]
      · rw [if_neg h1]
        have hwt : pyWords (pyStrip seg.text) = pyWords seg.text :=
          pyWords_strip seg.text
        by_cases h4 : curText ≠ ""
        · have hcand : pyWords (pyStrip (curText ++ " " ++
              pyStrip seg.text)) = pyWords curText ++ pyWords seg.text := by
            rw [pyWords_strip, pyWords_join, hwt]
          rw [if_pos h4, if_pos h4]
          split_ifs with h2 h3
          · rw [List.map_cons, List.flatten_cons, ih, hcand]
            simp [pyWords_empty]
          · rw [ih, hcand]
            simp
          · rw [List.map_cons, List.flatten_cons, ih, hwt]
            simp
        · have hni : ¬ (curText ≠ "") := h4
          rw [not_not] at h4
          rw [if_neg hni, if_neg hni, h4]
          split_ifs with h2 h3
          · rw [List.map_cons, List.flatten_cons, ih, hwt]
            simp [pyWords_empty]
          · rw [ih, hwt]
            simp [pyWords_empty]
          · rw [ih, hwt]
            simp [pyWords_empty]

/-- Claim C2 counterexample: _chunk_segments with the default window
[80, 200] on segments [{start 1, end 0, "x"}, {start 2, end 3, 201*"a"}]
emits a 201-character chunk (an oversized single segment escapes the
200-character cap), and the first chunk — whose only contributing segment
ends at time 0 — reports end_seconds 2 (the next segment's start), because
the Python `cur_end or s` fallback treats the float 0.0 as missing. -/
theorem c2_chunk_counterexample :
    Worker.chunk_segments 80 200 "en"
        [⟨1, 0, "x"⟩, ⟨2, 3, ⟨List.replicate 201 'a'⟩⟩] =
      [⟨1, 2, "x", "en"⟩, ⟨2, 3, ⟨List.replicate 201 'a'⟩, "en"⟩] ∧
    (⟨List.replicate 201 'a'⟩ : String).length = 201 ∧
    ¬ ((201 : ℕ) ≤ 200) ∧
    (⟨1, 0, "x"⟩ : Worker.Segment).end_ = 0 ∧ (2 : ℚ) ≠ 0 := by
  set_option maxRecDepth 8000 in decide

/-- Claim C2 (amended): _chunk_segments (min_len 80, max_len 200) preserves
the whitespace-normalized word stream of the input segment texts; provided
every stripped segment text has at most 200 characters, every emitted chunk
text has at most 200 characters; and provided every segment end time is
non-zero, the chunks partition the non-blank stripped segments into
consecutive non-empty blocks, each chunk carrying the start time of its
first and the end time of its last contributing segment and their
space-joined texts. -/
theorem c2_chunking_amended (lang : String)
    (segments : List Worker.Segment) :
    (((Worker.chunk_segments 80 200 lang segments).map
        (fun ch => pyWords ch.text)).flatten =
      (segments.map (fun s => pyWords s.text)).flatten) ∧
    ((∀ s ∈ segments, (pyStrip s.text).length ≤ 200) →
      ∀ ch ∈ Worker.chunk_segments 80 200 lang segments,
        ch.text.length ≤ 200) ∧
    ((∀ s ∈ segments, s.end_ ≠ 0) →
      ∃ blocks : List (List Worker.Segment),
        blocks.flatten = Worker.cleanSegs segments ∧
        (∀ b ∈ blocks, b ≠ []) ∧
        Worker.chunk_segments 80 200 lang segments =
          blocks.map (Worker.renderBlock lang)) := by
  refine ⟨?_, ?_, ?_⟩
  · rw [Worker.chunk_segments,
      chunkGo_words 80 200 lang segments "" none none]
    simp [pyWords_empty]
  · intro h1
    exact chunkGo_len 80 200 lang segments "" none none (by decide) h1
  · intro h2
    obtain ⟨blocks, hb1, hb2, hb3⟩ :=
      chunkGo_partition 80 200 lang segments [] rfl (by simp) h2
    refine ⟨blocks, by simpa using hb1, hb2, ?_⟩
    exact hb3

/-- Witness: the amended C2 theorem applied to a concrete transcript whose
hypotheses (texts within the cap, non-zero end times) hold. -/
theorem c2_chunking_amended_witness :
    (∀ s ∈ [(⟨0, 2, " hello "⟩ : Worker.Segment), ⟨2, 4, "world"⟩],
        (pyStrip s.text).length ≤ 200) ∧
    (∀ ch ∈ Worker.chunk_segments 80 200 "en"
        [(⟨0, 2, " hello "⟩ : Worker.Segment), ⟨2, 4, "world"⟩],
      ch.text.length ≤ 200) ∧
    (∀ s ∈ [(⟨0, 2, " hello "⟩ : Worker.Segment), ⟨2, 4, "world"⟩],
        s.end_ ≠ 0) ∧
    (∃ blocks : List (List Worker.Segment),
      blocks.flatten = Worker.cleanSegs
        [(⟨0, 2, " hello "⟩ : Worker.Segment), ⟨2, 4, "world"⟩] ∧
      (∀ b ∈ blocks, b ≠ []) ∧
      Worker.chunk_segments 80 200 "en"
          [(⟨0, 2, " hello "⟩ : Worker.Segment), ⟨2, 4, "world"⟩] =
        blocks.map (Worker.renderBlock "en")) :=
  ⟨by decide,
   (c2_chunking_amended "en" _).2.1 (by decide),
   by decide,
   (c2_chunking_amended "en" _).2.2 (by decide)⟩
